import Mathlib

/-!
Shallow embedding of the `Buscas` repository.

Two C translation units are modelled:

* `Transit` — `projeto2.c`: a directed weighted graph with node names,
  Dijkstra's algorithm (O(V²) linear-scan variant) and its `print_path`.
* `Maze` — the maze file: an undirected unweighted graph, BFS with a FIFO
  queue, recursive DFS, and its `print_path`.

C `int` values are modelled as `Int` (indices that are known to be
non-negative node indices are modelled as `Nat`); linked adjacency lists are
modelled as `List`; `INT_MAX` is the literal `2147483647`.  Loops whose
termination depends on program invariants are given explicit fuel, and the
development proves the fuel is never exhausted on the states the program
reaches.
-/

namespace Transit

/-- `INT_MAX`, used by `projeto2.c` as the "unreachable" sentinel `INFINITY`. -/
def INFINITY : Int := 2147483647

/-- One cell of an adjacency linked list: destination index and edge weight. -/
structure AdjListNode where
  dest : Nat
  weight : Int
deriving DecidableEq, Repr

/-- The transit graph of `projeto2.c`: node count, adjacency lists, node names. -/
structure Graph where
  num_nodes : Nat
  adj_lists : List (List AdjListNode)
  node_names : List (Option String)
deriving DecidableEq, Repr

/-- `create_graph`: `num_nodes` empty adjacency lists and `NULL` names. -/
def create_graph (num_nodes : Nat) : Graph :=
  { num_nodes := num_nodes
    adj_lists := List.replicate num_nodes []
    node_names := List.replicate num_nodes none }

/-- Adjacency list of node `u` (empty if out of range). -/
def adjl (g : Graph) (u : Nat) : List AdjListNode := g.adj_lists.getD u []

/-- `add_edge`: prepend the new edge cell to the source's adjacency list. -/
def add_edge (g : Graph) (src dest : Nat) (weight : Int) : Graph :=
  { g with adj_lists := g.adj_lists.set src (⟨dest, weight⟩ :: adjl g src) }

/-- `set_node_name`: out-of-range indices are reported and the call returns
with the graph untouched; in-range indices overwrite the stored name. -/
def set_node_name (g : Graph) (node_index : Int) (name : String) : Graph :=
  if node_index < 0 ∨ (g.num_nodes : Int) ≤ node_index then g
  else { g with node_names := g.node_names.set node_index.toNat (some name) }

/-- The scratch state of `dijkstra`: `dist`, `visited` and `parent` arrays. -/
structure DijkState where
  dist : List Int
  visited : List Bool
  parent : List Int
deriving DecidableEq, Repr

/-- The initialisation loop of `dijkstra` plus `dist[start_node] = 0`. -/
def initState (g : Graph) (start_node : Nat) : DijkState :=
  { dist := (List.replicate g.num_nodes INFINITY).set start_node 0
    visited := List.replicate g.num_nodes false
    parent := List.replicate g.num_nodes (-1) }

/-- The minimum-distance scan of `dijkstra`:
`for v in [0,n): if (!visited[v] && dist[v] <= min_dist) { min_dist = dist[v]; u = v; }`
returning the final `(min_dist, u)` (with `u = -1` when no update happened). -/
def findMinU (n : Nat) (visited : List Bool) (dist : List Int) : Int × Int :=
  (List.range n).foldl
    (fun p v =>
      if visited.getD v false = false ∧ dist.getD v 0 ≤ p.1 then (dist.getD v 0, (v : Int))
      else p)
    (INFINITY, -1)

/-- The relaxation loop over the adjacency list of the settled node `u`;
`dist[u]` is re-read from the state at every step, exactly as the C loop does. -/
def relax (u : Nat) : List AdjListNode → DijkState → DijkState
  | [], st => st
  | e :: rest, st =>
    if st.visited.getD e.dest false = false ∧ st.dist.getD u 0 ≠ INFINITY ∧
        st.dist.getD u 0 + e.weight < st.dist.getD e.dest 0 then
      relax u rest
        { st with
          dist := st.dist.set e.dest (st.dist.getD u 0 + e.weight)
          parent := st.parent.set e.dest (u : Int) }
    else relax u rest st

/-- The main loop of `dijkstra`, one fuel unit per `count` iteration:
select the minimum unvisited node, break on `u == -1`, else settle and relax. -/
def dijkstraLoop (g : Graph) : Nat → DijkState → DijkState
  | 0, st => st
  | Nat.succ fuel, st =>
    let p := findMinU g.num_nodes st.visited st.dist
    if p.2 = -1 then st
    else
      dijkstraLoop g fuel
        (relax p.2.toNat (adjl g p.2.toNat) { st with visited := st.visited.set p.2.toNat true })

/-- `dijkstra(graph, start_node, dist, parent)`: the loop runs `num_nodes - 1` times. -/
def dijkstra (g : Graph) (start_node : Nat) : DijkState :=
  dijkstraLoop g (g.num_nodes - 1) (initState g start_node)

/-- A directed edge from `a` to `b` of weight `w` stored in the adjacency lists. -/
def Edge (g : Graph) (a b : Nat) (w : Int) : Prop := (⟨b, w⟩ : AdjListNode) ∈ adjl g a

/-- Paths whose nodes, except possibly the final one, all satisfy `S`.
`PathB g S a x l c`: a directed path from `a` to `x` visiting the node list `l`
(which starts with `a` and ends with `x`) of total edge weight `c`. -/
inductive PathB (g : Graph) (S : Nat → Prop) : Nat → Nat → List Nat → Int → Prop where
  | nil (a : Nat) : PathB g S a a [a] 0
  | cons {a b x : Nat} {w : Int} {l : List Nat} {c : Int} :
      S a → Edge g a b w → PathB g S b x l c → PathB g S a x (a :: l) (w + c)

/-- The trivial node predicate: an unrestricted path. -/
def anyNode : Nat → Prop := fun _ => True

/-- `v` is reachable from `s` by some directed path. -/
def ReachT (g : Graph) (s v : Nat) : Prop := ∃ l c, PathB g anyNode s v l c

/-- `d` is the minimum, over all directed paths from `s` to `v`, of the sum of
the edge weights along the path: it is attained and it is a lower bound. -/
def IsMinDist (g : Graph) (s v : Nat) (d : Int) : Prop :=
  (∃ l, PathB g anyNode s v l d) ∧ ∀ l c, PathB g anyNode s v l c → d ≤ c

/-- Well-formedness of a constructed transit graph: the adjacency array has
exactly `num_nodes` entries and every stored destination index is in range. -/
def WF (g : Graph) : Prop :=
  g.adj_lists.length = g.num_nodes ∧
    ∀ l ∈ g.adj_lists, ∀ e ∈ l, e.dest < g.num_nodes

/-- Every stored edge weight is non-negative. -/
def nonneg (g : Graph) : Prop := ∀ l ∈ g.adj_lists, ∀ e ∈ l, 0 ≤ e.weight

/-- The sum of all stored edge weights. -/
def totalWeight (g : Graph) : Int :=
  (g.adj_lists.map (fun l => (l.map AdjListNode.weight).sum)).sum

instance (g : Graph) : Decidable (WF g) := by unfold WF; infer_instance

instance (g : Graph) : Decidable (nonneg g) := by unfold nonneg; infer_instance

end Transit

/-- Result of a `print_path` call, abstracting the console output: the node
sequence actually printed, a "no path" report, the transit-specific "you are
already there" report, or divergence of the backward walk (never reached on
predecessor maps the algorithms produce). -/
inductive PrintResult where
  | alreadyThere (node : Int)
  | noPath
  | path (p : List Int)
  | diverge
deriving DecidableEq, Repr

/-- The backward walk shared by both `print_path` functions:
`while (current != -1 && current != start_node) { path[len++] = current; current = parent[current]; }`
followed by appending `start_node`, returned in printing (forward) order.
`fuel` bounds the number of loop iterations; `none` means the walk did not
finish within `fuel` steps (the C code would overrun its `path` array). -/
def pathWalk (parent : List Int) (start_node : Int) : Nat → Int → List Int → Option (List Int)
  | 0, current, acc =>
    if current = -1 ∨ current = start_node then some (start_node :: acc) else none
  | Nat.succ fuel, current, acc =>
    if current = -1 ∨ current = start_node then some (start_node :: acc)
    else pathWalk parent start_node fuel (parent.getD current.toNat (-1)) (current :: acc)

/-- A predecessor array is ranked: some rank function bounded by `n` strictly
decreases along predecessor links.  This is the structural reason every
backward walk over a map produced by BFS, DFS or Dijkstra terminates. -/
def ParentRanked (n : Nat) (parent : List Int) : Prop :=
  ∃ rank : Nat → Nat,
    (∀ v, v < n → rank v < n) ∧
    ∀ v, v < n → parent.getD v (-1) ≠ -1 →
      (parent.getD v (-1)).toNat < n ∧ rank (parent.getD v (-1)).toNat < rank v

/-- Index of the first occurrence of `v` (length of the list if absent). -/
def pos : List Nat → Nat → Nat
  | [], _ => 0
  | a :: t, v => if a = v then 0 else pos t v + 1

namespace Transit

/-- `MAX_NODES` of `projeto2.c`. -/
def MAX_NODES : Nat := 20

/-- `print_path` of `projeto2.c`: "already there" when `end == start`, "no
path" when `parent[end] == -1`, otherwise the backward walk printed forward. -/
def print_path (parent : List Int) (start_node end_node : Int) : PrintResult :=
  if end_node = start_node then .alreadyThere start_node
  else if parent.getD end_node.toNat (-1) = -1 ∧ end_node ≠ start_node then .noPath
  else
    match pathWalk parent start_node MAX_NODES end_node [] with
    | some l => .path l
    | none => .diverge

end Transit

namespace Maze

/-- `MAX_NODES` of the maze file (`MAX_ROWS * MAX_COLS`). -/
def MAX_NODES : Nat := 100

/-- The maze graph: node count and unweighted adjacency lists. -/
structure Graph where
  num_nodes : Nat
  adj_lists : List (List Nat)
deriving DecidableEq, Repr

/-- `create_graph`: `num_nodes` empty adjacency lists. -/
def create_graph (num_nodes : Nat) : Graph :=
  { num_nodes := num_nodes, adj_lists := List.replicate num_nodes [] }

/-- Adjacency list of node `u` (empty if out of range). -/
def adjl (g : Graph) (u : Nat) : List Nat := g.adj_lists.getD u []

/-- `add_edge` of the maze file: prepend `dest` to `src`'s list, then prepend
`src` to `dest`'s list (maze edges are stored in both directions). -/
def add_edge (g : Graph) (src dest : Nat) : Graph :=
  let g1 : Graph := { g with adj_lists := g.adj_lists.set src (dest :: adjl g src) }
  { g1 with adj_lists := g1.adj_lists.set dest (src :: adjl g1 dest) }

/-- Well-formedness of a constructed maze graph. -/
def WF (g : Graph) : Prop :=
  g.adj_lists.length = g.num_nodes ∧
    ∀ l ∈ g.adj_lists, ∀ v ∈ l, v < g.num_nodes

instance (g : Graph) : Decidable (WF g) := by unfold WF; infer_instance

/-- Unweighted directed paths: `MPath g a x l k` is a path from `a` to `x`
visiting node list `l` with `k` edges. -/
inductive MPath (g : Graph) : Nat → Nat → List Nat → Nat → Prop where
  | nil (a : Nat) : MPath g a a [a] 0
  | cons {a b x : Nat} {l : List Nat} {k : Nat} :
      b ∈ adjl g a → MPath g b x l k → MPath g a x (a :: l) (k + 1)

/-- `v` is reachable from `s` in the maze graph. -/
def ReachM (g : Graph) (s v : Nat) : Prop := ∃ l k, MPath g s v l k

/-- `d` is the minimum number of edges over all paths from `s` to `v`. -/
def hopMin (g : Graph) (s v : Nat) (d : Nat) : Prop :=
  (∃ l, MPath g s v l d) ∧ ∀ l k, MPath g s v l k → d ≤ k

/-- `print_path` of the maze file: "no path" only when `end_node == -1`,
otherwise the backward walk printed forward. -/
def print_path (parent : List Int) (start_node end_node : Int) : PrintResult :=
  if end_node = -1 then .noPath
  else
    match pathWalk parent start_node MAX_NODES end_node [] with
    | some l => .path l
    | none => .diverge

/-- The scratch state of `bfs`: `visited`, `parent`, the FIFO queue, and
`path_found_end_node` (`-1` until the target is dequeued). -/
structure BfsState where
  visited : List Bool
  parent : List Int
  queue : List Nat
  found : Int
deriving DecidableEq, Repr

/-- The neighbour scan of one BFS iteration: enqueue each unvisited neighbour,
marking it visited and recording `u` as its predecessor. -/
def bfsVisit (u : Nat) : List Nat → BfsState → BfsState
  | [], st => st
  | v :: rest, st =>
    if st.visited.getD v false = true then bfsVisit u rest st
    else
      bfsVisit u rest
        { st with
          visited := st.visited.set v true
          parent := st.parent.set v (u : Int)
          queue := st.queue ++ [v] }

/-- The BFS work loop: dequeue `u`; if it is the target, record it and break;
otherwise scan its neighbours.  One fuel unit per iteration. -/
def bfsLoop (g : Graph) (end_node : Nat) : Nat → BfsState → BfsState
  | 0, st => st
  | Nat.succ fuel, st =>
    match st.queue with
    | [] => st
    | u :: rest =>
      if u = end_node then { st with queue := rest, found := (u : Int) }
      else bfsLoop g end_node fuel (bfsVisit u (adjl g u) { st with queue := rest })

/-- `bfs(graph, start_node, end_node, ...)`: seed the queue with the visited
start node and run the loop (`num_nodes` fuel is enough, proved below). -/
def bfs (g : Graph) (start_node end_node : Nat) : BfsState :=
  bfsLoop g end_node g.num_nodes
    { visited := (List.replicate g.num_nodes false).set start_node true
      parent := List.replicate g.num_nodes (-1)
      queue := [start_node]
      found := -1 }

/-- The scratch state of `dfs`: `visited` and `parent`. -/
structure DfsState where
  visited : List Bool
  parent : List Int
deriving DecidableEq, Repr

mutual

/-- `dfs_recursive`: mark the current node visited, succeed if it is the
target, otherwise scan the neighbours.  `fuel` bounds the recursion depth;
`none` (never reached from `dfs`, proved below) means fuel ran out. -/
def dfs_recursive (g : Graph) (end_node : Nat) :
    Nat → Nat → DfsState → Option (Bool × DfsState)
  | 0, _, _ => none
  | Nat.succ fuel, current_node, st0 =>
    let st : DfsState := { st0 with visited := st0.visited.set current_node true }
    if current_node = end_node then some (true, st)
    else dfsNeighbors g end_node fuel (adjl g current_node) current_node st

/-- The neighbour loop of `dfs_recursive`: descend into each unvisited
neighbour after recording its predecessor, and stop at the first success. -/
def dfsNeighbors (g : Graph) (end_node : Nat) :
    Nat → List Nat → Nat → DfsState → Option (Bool × DfsState)
  | _, [], _, st => some (false, st)
  | fuel, v :: rest, current_node, st =>
    if st.visited.getD v false = true then dfsNeighbors g end_node fuel rest current_node st
    else
      match dfs_recursive g end_node fuel v
          { st with parent := st.parent.set v (current_node : Int) } with
      | none => none
      | some (true, st') => some (true, st')
      | some (false, st') => dfsNeighbors g end_node fuel rest current_node st'

end

/-- `dfs(graph, start_node, end_node, ...)`: fresh state, recursion from the
start node (`num_nodes` fuel is enough, proved below). -/
def dfs (g : Graph) (start_node end_node : Nat) : Bool × DfsState :=
  (dfs_recursive g end_node g.num_nodes start_node
      { visited := List.replicate g.num_nodes false
        parent := List.replicate g.num_nodes (-1) }).getD
    (false,
      { visited := List.replicate g.num_nodes false
        parent := List.replicate g.num_nodes (-1) })

end Maze

/-! Concrete graphs used to instantiate the theorems below. -/

/-- Transit example: `A→B` weight 10, `B→C` weight 5, `A→C` weight 20. -/
def gABC : Transit.Graph :=
  Transit.add_edge (Transit.add_edge (Transit.add_edge (Transit.create_graph 3) 0 1 10) 1 2 5)
    0 2 20

/-- Transit graph with three nodes and no edges. -/
def gIso3 : Transit.Graph := Transit.create_graph 3

/-- Transit graph with an equal-distance tie: `0→1` and `0→2` both weight 1,
then `1→3` and `2→3` both weight 1. -/
def gTie : Transit.Graph :=
  Transit.add_edge
    (Transit.add_edge (Transit.add_edge (Transit.add_edge (Transit.create_graph 4) 0 1 1) 0 2 1)
      1 3 1)
    2 3 1

/-- Maze graph: a three-node line `0 - 1 - 2`. -/
def mLine : Maze.Graph := Maze.add_edge (Maze.add_edge (Maze.create_graph 3) 0 1) 1 2

/-- Maze graph with two nodes and no edges. -/
def mIso2 : Maze.Graph := Maze.create_graph 2

/-! Invariant definitions used by the proofs. -/

/-- A visited/parent pair is consistent with a settle/visit order `ord`:
`ord` lists exactly the visited in-range nodes without repetition, and every
predecessor link points into `ord`, at a strictly earlier position when the
child has been visited as well. -/
def OrdCons (n : Nat) (visited : List Bool) (parent : List Int) (ord : List Nat) : Prop :=
  ord.Nodup ∧
  (∀ v, v ∈ ord ↔ v < n ∧ visited.getD v false = true) ∧
  ∀ v, v < n → parent.getD v (-1) ≠ -1 →
    ∃ u : Nat, parent.getD v (-1) = (u : Int) ∧ u ∈ ord ∧
      (v ∈ ord → pos ord u < pos ord v)

namespace Transit

/-- The settled set of a Dijkstra state, as a predicate on nodes. -/
def visP (st : DijkState) : Nat → Prop := fun v => st.visited.getD v false = true

/-- The loop invariant of `dijkstra`. -/
structure DInv (g : Graph) (s : Nat) (st : DijkState) : Prop where
  dlen : st.dist.length = g.num_nodes
  vlen : st.visited.length = g.num_nodes
  plen : st.parent.length = g.num_nodes
  nonnegD : ∀ v, v < g.num_nodes → 0 ≤ st.dist.getD v 0
  leInf : ∀ v, v < g.num_nodes → st.dist.getD v 0 ≤ INFINITY
  achieved : ∀ v, v < g.num_nodes → st.dist.getD v 0 ≠ INFINITY →
    ∃ l, PathB g (visP st) s v l (st.dist.getD v 0)
  unsettledUB : ∀ v, v < g.num_nodes → st.visited.getD v false = false →
    ∀ l c, PathB g (visP st) s v l c → st.dist.getD v 0 ≤ c
  settledOpt : ∀ v, v < g.num_nodes → st.visited.getD v false = true →
    ∀ l c, PathB g anyNode s v l c → st.dist.getD v 0 ≤ c
  dist_s : st.dist.getD s 0 = 0
  parent_s : st.parent.getD s (-1) = -1
  parentOK : ∀ v, v < g.num_nodes → st.parent.getD v (-1) ≠ -1 →
    ∃ u, st.parent.getD v (-1) = (u : Nat) ∧ u < g.num_nodes ∧
      st.visited.getD u false = true ∧ st.dist.getD v 0 ≠ INFINITY
  order : ∃ ord, OrdCons g.num_nodes st.visited st.parent ord

end Transit

namespace Maze

/-- Number of BFS/DFS work units still possible: unvisited nodes plus queue. -/
def measureB (st : BfsState) : Nat := st.visited.count false + st.queue.length

/-- The loop invariant of `bfs` (target `e`, before the target is dequeued). -/
structure BInv (g : Graph) (s e : Nat) (st : BfsState) : Prop where
  vlen : st.visited.length = g.num_nodes
  plen : st.parent.length = g.num_nodes
  qmem : ∀ x ∈ st.queue, x < g.num_nodes ∧ st.visited.getD x false = true
  qnodup : st.queue.Nodup
  vis_s : st.visited.getD s false = true
  parent_s : st.parent.getD s (-1) = -1
  parentOK : ∀ v, v < g.num_nodes → v ≠ s → st.visited.getD v false = true →
    ∃ u du, st.parent.getD v (-1) = (u : Nat) ∧ u < g.num_nodes ∧
      st.visited.getD u false = true ∧ v ∈ adjl g u ∧ hopMin g s u du ∧ hopMin g s v (du + 1)
  unvis_parent : ∀ v, v < g.num_nodes → st.visited.getD v false = false →
    st.parent.getD v (-1) = -1
  found_neg : st.found = -1
  target_pending : st.visited.getD e false = true → e ∈ st.queue
  processed_closed : ∀ v, v < g.num_nodes → st.visited.getD v false = true → v ∉ st.queue →
    ∀ w ∈ adjl g v, st.visited.getD w false = true
  levels : ∃ d q1 q2, st.queue = q1 ++ q2 ∧ (∀ x ∈ q1, hopMin g s x d) ∧
    (∀ x ∈ q2, hopMin g s x (d + 1)) ∧
    ∀ v, v < g.num_nodes → (∃ l k, MPath g s v l k ∧ k ≤ d) →
      st.visited.getD v false = true
  order : ∃ ord, OrdCons g.num_nodes st.visited st.parent ord

/-- The facts about the final state of the BFS loop used by the claims. -/
structure BPost (g : Graph) (s e : Nat) (st : BfsState) : Prop where
  vlen : st.visited.length = g.num_nodes
  plen : st.parent.length = g.num_nodes
  parent_s : st.parent.getD s (-1) = -1
  parentOK : ∀ v, v < g.num_nodes → v ≠ s → st.visited.getD v false = true →
    ∃ u du, st.parent.getD v (-1) = ((u : Nat) : Int) ∧ u < g.num_nodes ∧
      st.visited.getD u false = true ∧ v ∈ adjl g u ∧ hopMin g s u du ∧ hopMin g s v (du + 1)
  unvis_parent : ∀ v, v < g.num_nodes → st.visited.getD v false = false →
    st.parent.getD v (-1) = -1
  vis_s : st.visited.getD s false = true
  result : (st.found = -1 ∧ st.visited.getD e false = false ∧
      ∀ v, v < g.num_nodes → st.visited.getD v false = true →
        ∀ w ∈ adjl g v, st.visited.getD w false = true) ∨
    (st.found = ((e : Nat) : Int) ∧ st.visited.getD e false = true)
  order : ∃ ord, OrdCons g.num_nodes st.visited st.parent ord

/-- The invariant carried through the neighbour scan of one BFS iteration:
the dequeued node is `u`, at hop level `d`, and the queue splits into a
level-`d` part `q1` and a level-`d+1` part `q2`. -/
structure BMid (g : Graph) (s e u d : Nat) (st : BfsState) (q1 q2 : List Nat) : Prop where
  vlen : st.visited.length = g.num_nodes
  plen : st.parent.length = g.num_nodes
  queue_eq : st.queue = q1 ++ q2
  qmem : ∀ x ∈ st.queue, x < g.num_nodes ∧ st.visited.getD x false = true
  qnodup : st.queue.Nodup
  vis_s : st.visited.getD s false = true
  parent_s : st.parent.getD s (-1) = -1
  parentOK : ∀ v, v < g.num_nodes → v ≠ s → st.visited.getD v false = true →
    ∃ u' du, st.parent.getD v (-1) = ((u' : Nat) : Int) ∧ u' < g.num_nodes ∧
      st.visited.getD u' false = true ∧ v ∈ adjl g u' ∧ hopMin g s u' du ∧
      hopMin g s v (du + 1)
  unvis_parent : ∀ v, v < g.num_nodes → st.visited.getD v false = false →
    st.parent.getD v (-1) = -1
  found_neg : st.found = -1
  pend : st.visited.getD e false = true → e ∈ st.queue
  u_lt : u < g.num_nodes
  u_vis : st.visited.getD u false = true
  u_out : u ∉ st.queue
  u_min : hopMin g s u d
  closure : ∀ v, v < g.num_nodes → st.visited.getD v false = true → v ∉ st.queue → v ≠ u →
    ∀ w ∈ adjl g v, st.visited.getD w false = true
  lev1 : ∀ x ∈ q1, hopMin g s x d
  lev2 : ∀ x ∈ q2, hopMin g s x (d + 1)
  levclosed : ∀ v, v < g.num_nodes → (∃ l k, MPath g s v l k ∧ k ≤ d) →
    st.visited.getD v false = true
  order : ∃ ord, OrdCons g.num_nodes st.visited st.parent ord

/-- The facts about the output of `dfs_recursive` used by the claims, relating
the input state `st` to the output flag `b` and state `st'`. -/
structure DfsOut (g : Graph) (e : Nat) (st : DfsState) (b : Bool) (st' : DfsState) : Prop where
  vlen : st'.visited.length = st.visited.length
  plen : st'.parent.length = st.parent.length
  vmono : ∀ v, st.visited.getD v false = true → st'.visited.getD v false = true
  pfix : ∀ v, st.visited.getD v false = true → st'.parent.getD v (-1) = st.parent.getD v (-1)
  enew : b = false → st'.visited.getD e false = true → st.visited.getD e false = true
  closure : b = false → ∀ v, st'.visited.getD v false = true →
    st.visited.getD v false = false → ∀ w ∈ adjl g v, st'.visited.getD w false = true
  order : ∀ ord, OrdCons g.num_nodes st.visited st.parent ord →
    ∃ ext, OrdCons g.num_nodes st'.visited st'.parent (ord ++ ext)

end Maze

/-! Generic list lemmas. -/

theorem getD_set_self {α : Type} (l : List α) (i : Nat) (a d : α) (h : i < l.length) :
    (l.set i a).getD i d = a := by
  rw [List.getD_eq_getElem?_getD, List.getElem?_set_self (by simpa using h)]
  rfl

theorem getD_set_ne {α : Type} (l : List α) (i j : Nat) (a d : α) (h : i ≠ j) :
    (l.set i a).getD j d = l.getD j d := by
  rw [List.getD_eq_getElem?_getD, List.getElem?_set_ne h, ← List.getD_eq_getElem?_getD]

theorem getD_replicate {α : Type} {n : Nat} (i : Nat) (a d : α) (h : i < n) :
    (List.replicate n a).getD i d = a := by
  rw [List.getD_eq_getElem?_getD, List.getElem?_replicate_of_lt h]
  rfl

theorem getD_mem {α : Type} (l : List α) (i : Nat) (d : α) (h : i < l.length) :
    l.getD i d ∈ l := by
  rw [List.getD_eq_getElem?_getD, List.getElem?_eq_getElem h]
  exact List.getElem_mem h

theorem count_false_set (l : List Bool) (u : Nat) (hu : u < l.length)
    (hf : l.getD u false = false) : (l.set u true).count false + 1 = l.count false := by
  induction l generalizing u with
  | nil => simp at hu
  | cons b t ih =>
    cases u with
    | zero =>
      simp only [List.getD_cons_zero] at hf
      subst hf
      simp [List.count_cons]
    | succ u =>
      simp only [List.getD_cons_succ] at hf
      simp only [List.length_cons, Nat.succ_lt_succ_iff] at hu
      simp only [List.set, List.count_cons]
      have := ih u hu hf
      omega

theorem count_false_exists (l : List Bool) (h : 0 < l.count false) :
    ∃ v, v < l.length ∧ l.getD v false = false := by
  have hmem : false ∈ l := List.count_pos_iff.mp h
  obtain ⟨i, hi, hget⟩ := List.mem_iff_getElem.mp hmem
  exact ⟨i, hi, by rw [List.getD_eq_getElem?_getD, List.getElem?_eq_getElem hi, hget]; rfl⟩

theorem count_false_unique (l : List Bool) (h : l.count false ≤ 1) :
    ∀ i j, i < l.length → j < l.length → l.getD i false = false →
      l.getD j false = false → i = j := by
  induction l with
  | nil => intro i j hi; simp at hi
  | cons b t ih =>
    intro i j hi hj hgi hgj
    cases b with
    | false =>
      have ht : t.count false = 0 := by simp [List.count_cons] at h; omega
      have hnone : ∀ k, k < t.length → t.getD k false ≠ false := by
        intro k hk hfk
        have : false ∈ t := by rw [← hfk]; exact getD_mem t k false hk
        rw [← List.count_pos_iff] at this
        omega
      cases i with
      | zero =>
        cases j with
        | zero => rfl
        | succ j =>
          simp only [List.getD_cons_succ] at hgj
          exact absurd hgj (hnone j (by simpa using hj))
      | succ i =>
        simp only [List.getD_cons_succ] at hgi
        exact absurd hgi (hnone i (by simpa using hi))
    | true =>
      have ht : t.count false ≤ 1 := by simpa [List.count_cons] using h
      cases i with
      | zero => simp at hgi
      | succ i =>
        cases j with
        | zero => simp at hgj
        | succ j =>
          have := ih ht i j (by simpa using hi) (by simpa using hj)
            (by simpa using hgi) (by simpa using hgj)
          omega

theorem pos_lt_of_mem {l : List Nat} {v : Nat} (h : v ∈ l) : pos l v < l.length := by
  induction l with
  | nil => simp at h
  | cons a t ih =>
    by_cases hav : a = v
    · simp [pos, hav]
    · rcases List.mem_cons.mp h with h1 | h2
      · exact absurd h1.symm hav
      · simpa [pos, hav] using ih h2

theorem pos_append_of_mem {l : List Nat} {v : Nat} (t : List Nat) (h : v ∈ l) :
    pos (l ++ t) v = pos l v := by
  induction l with
  | nil => simp at h
  | cons a r ih =>
    by_cases hav : a = v
    · simp [pos, hav]
    · rcases List.mem_cons.mp h with h1 | h2
      · exact absurd h1.symm hav
      · simp [pos, hav, ih h2]

theorem pos_append_self {l : List Nat} {v : Nat} (t : List Nat) (h : v ∉ l) :
    pos (l ++ v :: t) v = l.length := by
  induction l with
  | nil => simp [pos]
  | cons a r ih =>
    have hav : a ≠ v := fun he => h (he ▸ List.mem_cons_self a r)
    simp [pos, hav, ih (fun hm => h (List.mem_cons_of_mem a hm))]

theorem nodup_length_le (l : List Nat) (n : Nat) (hnd : l.Nodup) (hlt : ∀ x ∈ l, x < n) :
    l.length ≤ n := by
  have hsub : l.toFinset ⊆ Finset.range n := by
    intro x hx
    exact Finset.mem_range.mpr (hlt x (List.mem_toFinset.mp hx))
  have := Finset.card_le_card hsub
  rwa [List.toFinset_card_of_nodup hnd, Finset.card_range] at this

theorem nodup_length_le_sub (l : List Nat) (n v : Nat) (hnd : l.Nodup)
    (hlt : ∀ x ∈ l, x < n) (hv : v ∉ l) (hvn : v < n) : l.length ≤ n - 1 := by
  have hsub : l.toFinset ⊆ (Finset.range n).erase v := by
    intro x hx
    have hxl := List.mem_toFinset.mp hx
    exact Finset.mem_erase.mpr ⟨fun he => hv (he ▸ hxl), Finset.mem_range.mpr (hlt x hxl)⟩
  have := Finset.card_le_card hsub
  rw [List.toFinset_card_of_nodup hnd, Finset.card_erase_of_mem (Finset.mem_range.mpr hvn),
    Finset.card_range] at this
  exact this

/-! Lemmas about the backward path walk. -/

theorem pathWalk_fuel_mono (parent : List Int) (s : Int) :
    ∀ (f k : Nat) (c : Int) (acc r : List Int),
      pathWalk parent s f c acc = some r → pathWalk parent s (f + k) c acc = some r := by
  intro f
  induction f with
  | zero =>
    intro k c acc r h
    by_cases hc : c = -1 ∨ c = s
    · simp only [pathWalk, if_pos hc] at h
      cases k with
      | zero => simpa [pathWalk, hc] using h
      | succ k => simpa [pathWalk, hc] using h
    · simp [pathWalk, hc] at h
  | succ f ih =>
    intro k c acc r h
    by_cases hc : c = -1 ∨ c = s
    · simp only [pathWalk, if_pos hc] at h
      have hfk : f + 1 + k = (f + k) + 1 := by omega
      rw [hfk]
      simp only [pathWalk, if_pos hc]
      exact h
    · simp only [pathWalk, if_neg hc] at h
      have : f + 1 + k = (f + k) + 1 := by omega
      rw [this]
      simp only [pathWalk, if_neg hc]
      exact ih k _ _ r h

theorem ranked_walk_aux (parent : List Int) (s : Int) (n : Nat) (rank : Nat → Nat)
    (hrank : ∀ v, v < n → parent.getD v (-1) ≠ -1 →
      (parent.getD v (-1)).toNat < n ∧ rank (parent.getD v (-1)).toNat < rank v) :
    ∀ (f : Nat) (c : Int) (acc : List Int),
      (c = -1 ∨ c = s ∨ (c.toNat < n ∧ rank c.toNat < f)) →
      (pathWalk parent s f c acc).isSome := by
  intro f
  induction f with
  | zero =>
    intro c acc h
    rcases h with h | h | h
    · simp [pathWalk, h]
    · simp [pathWalk, h]
    · omega
  | succ f ih =>
    intro c acc h
    by_cases hc : c = -1 ∨ c = s
    · simp [pathWalk, hc]
    · push_neg at hc
      rcases h with h | h | h
      · exact absurd h hc.1
      · exact absurd h hc.2
      · simp only [pathWalk, if_neg (not_or.mpr hc)]
        by_cases hp : parent.getD c.toNat (-1) = -1
        · exact ih _ _ (Or.inl hp)
        · obtain ⟨h1, h2⟩ := hrank c.toNat h.1 hp
          exact ih _ _ (Or.inr (Or.inr ⟨h1, by omega⟩))

/-- A ranked predecessor map's backward walk finishes within `n` steps. -/
theorem ranked_walk (n : Nat) (parent : List Int) (h : ParentRanked n parent) (s : Int)
    (c : Nat) (hc : c < n) (acc : List Int) :
    (pathWalk parent s n (c : Int) acc).isSome := by
  obtain ⟨rank, hbound, hrank⟩ := h
  exact ranked_walk_aux parent s n rank hrank n (c : Int) acc
    (Or.inr (Or.inr ⟨by simpa using hc, by simpa using hbound c hc⟩))

/-- An order-consistent visited/parent pair yields a ranked predecessor map. -/
theorem ordCons_ranked {n : Nat} {visited : List Bool} {parent : List Int} {ord : List Nat}
    (h : OrdCons n visited parent ord) : ParentRanked n parent := by
  obtain ⟨hnd, hmem, hpar⟩ := h
  refine ⟨fun v => if v ∈ ord then pos ord v else ord.length, ?_, ?_⟩
  · intro v hv
    have hlen : ord.length ≤ n := nodup_length_le ord n hnd fun x hx => (hmem x |>.mp hx).1
    by_cases hvo : v ∈ ord
    · simp only [if_pos hvo]
      have := pos_lt_of_mem hvo
      omega
    · simp only [if_neg hvo]
      have : ord.length ≤ n - 1 :=
        nodup_length_le_sub ord n v hnd (fun x hx => (hmem x |>.mp hx).1) hvo hv
      omega
  · intro v hv hne
    obtain ⟨u, hu, huo, hlt⟩ := hpar v hv hne
    have hun : u < n := (hmem u |>.mp huo).1
    have htn : (parent.getD v (-1)).toNat = u := by rw [hu]; simp
    refine ⟨by omega, ?_⟩
    show (if (parent.getD v (-1)).toNat ∈ ord then pos ord (parent.getD v (-1)).toNat
        else ord.length) < if v ∈ ord then pos ord v else ord.length
    rw [htn, if_pos huo]
    by_cases hvo : v ∈ ord
    · rw [if_pos hvo]
      exact hlt hvo
    · rw [if_neg hvo]
      exact pos_lt_of_mem huo

/-! Path theory for the transit graph. -/

namespace Transit

theorem adjl_mem {g : Graph} {a : Nat} (hne : adjl g a ≠ []) : adjl g a ∈ g.adj_lists := by
  unfold adjl at *
  by_cases ha : a < g.adj_lists.length
  · exact getD_mem _ _ _ ha
  · rw [List.getD_eq_default _ _ (by omega)] at hne ⊢
    exact absurd rfl hne

theorem edge_dest_lt {g : Graph} (hwf : WF g) {a b : Nat} {w : Int} (h : Edge g a b w) :
    b < g.num_nodes := by
  have hne : adjl g a ≠ [] := by
    intro hnil
    rw [Edge, hnil] at h
    simp at h
  exact hwf.2 _ (adjl_mem hne) _ h

theorem edge_weight_nonneg {g : Graph} (hw : nonneg g) {a b : Nat} {w : Int}
    (h : Edge g a b w) : 0 ≤ w := by
  have hne : adjl g a ≠ [] := by
    intro hnil
    rw [Edge, hnil] at h
    simp at h
  exact hw _ (adjl_mem hne) _ h

theorem edge_weight_le_total {g : Graph} (hw : nonneg g) {a b : Nat} {w : Int}
    (h : Edge g a b w) : w ≤ totalWeight g := by
  have hne : adjl g a ≠ [] := by
    intro hnil
    rw [Edge, hnil] at h
    simp at h
  have hmem := @adjl_mem g a hne
  have h1 : w ≤ ((adjl g a).map AdjListNode.weight).sum := by
    refine List.single_le_sum ?_ _ (List.mem_map.mpr ⟨_, h, rfl⟩)
    intro x hx
    obtain ⟨e, he, rfl⟩ := List.mem_map.mp hx
    exact hw _ hmem _ he
  have h2 : ((adjl g a).map AdjListNode.weight).sum ≤ totalWeight g := by
    refine List.single_le_sum ?_ _ (List.mem_map.mpr ⟨_, hmem, rfl⟩)
    intro x hx
    obtain ⟨l, hl, rfl⟩ := List.mem_map.mp hx
    exact List.sum_nonneg fun y hy => by
      obtain ⟨e, he, rfl⟩ := List.mem_map.mp hy
      exact hw _ hl _ he
  exact le_trans h1 h2

theorem totalWeight_nonneg {g : Graph} (hw : nonneg g) : 0 ≤ totalWeight g := by
  refine List.sum_nonneg fun x hx => ?_
  obtain ⟨l, hl, rfl⟩ := List.mem_map.mp hx
  exact List.sum_nonneg fun y hy => by
    obtain ⟨e, he, rfl⟩ := List.mem_map.mp hy
    exact hw _ hl _ he

theorem PathB.mono {g : Graph} {S T : Nat → Prop} (hST : ∀ v, S v → T v)
    {a x : Nat} {l : List Nat} {c : Int} (h : PathB g S a x l c) : PathB g T a x l c := by
  induction h with
  | nil a => exact .nil a
  | cons hS he _ ih => exact .cons (hST _ hS) he ih

theorem PathB.any_of {g : Graph} {S : Nat → Prop} {a x : Nat} {l : List Nat} {c : Int}
    (h : PathB g S a x l c) : PathB g anyNode a x l c :=
  h.mono fun _ _ => trivial

theorem PathB.cost_nonneg {g : Graph} (hw : nonneg g) {S : Nat → Prop} {a x : Nat}
    {l : List Nat} {c : Int} (h : PathB g S a x l c) : 0 ≤ c := by
  induction h with
  | nil a => exact le_refl 0
  | cons _ he _ ih => have := edge_weight_nonneg hw he; omega

theorem PathB.head_eq {g : Graph} {S : Nat → Prop} {a x : Nat} {l : List Nat} {c : Int}
    (h : PathB g S a x l c) : ∃ t, l = a :: t := by
  cases h with
  | nil => exact ⟨[], rfl⟩
  | cons _ _ hp => exact ⟨_, rfl⟩

theorem PathB.end_mem {g : Graph} {S : Nat → Prop} {a x : Nat} {l : List Nat} {c : Int}
    (h : PathB g S a x l c) : x ∈ l := by
  induction h with
  | nil a => exact List.mem_singleton.mpr rfl
  | cons _ _ _ ih => exact List.mem_cons_of_mem _ ih

theorem PathB.nodes_lt {g : Graph} (hwf : WF g) {S : Nat → Prop} {a x : Nat} {l : List Nat}
    {c : Int} (h : PathB g S a x l c) (ha : a < g.num_nodes) : ∀ y ∈ l, y < g.num_nodes := by
  induction h with
  | nil a =>
    intro y hy
    rw [List.mem_singleton.mp hy]
    exact ha
  | cons _ he hp ih =>
    intro y hy
    rcases List.mem_cons.mp hy with h1 | h2
    · exact h1 ▸ ha
    · exact ih (edge_dest_lt hwf he) y h2

theorem PathB.append_edge {g : Graph} {S : Nat → Prop} {s u : Nat} {l : List Nat}
    {c : Int} (h : PathB g S s u l c) :
    ∀ {b : Nat} {w : Int}, S u → Edge g u b w → PathB g S s b (l ++ [b]) (c + w) := by
  induction h with
  | nil a =>
    intro b w hSu he
    have h0 : (0 : Int) + w = w + 0 := by omega
    rw [List.singleton_append, h0]
    exact .cons hSu he (.nil b)
  | @cons a bb x ww ll cc hS hedge hp ih =>
    intro b w hSu he
    have h0 : ww + cc + w = ww + (cc + w) := by omega
    rw [List.cons_append, h0]
    exact .cons hS hedge (ih hSu he)

theorem PathB.first_exit {g : Graph} (hw : nonneg g) (S : Nat → Prop) {a x : Nat}
    {l : List Nat} {c : Int} (h : PathB g anyNode a x l c) :
    PathB g S a x l c ∨
      ∃ y l1 c1 c2, ¬ S y ∧ y ∈ l ∧ PathB g S a y l1 c1 ∧ 0 ≤ c2 ∧ c = c1 + c2 := by
  induction h with
  | nil a => exact Or.inl (.nil a)
  | @cons a b x w l' c' _ hedge hp ih =>
    by_cases hSa : S a
    · rcases ih with hL | ⟨y, l1, c1, c2, hy, hmem, hp1, hc2, hceq⟩
      · exact Or.inl (.cons hSa hedge hL)
      · refine Or.inr ⟨y, a :: l1, w + c1, c2, hy, List.mem_cons_of_mem a hmem,
          .cons hSa hedge hp1, hc2, by omega⟩
    · refine Or.inr ⟨a, [a], 0, w + c', hSa, List.mem_cons_self a _, .nil a, ?_, by omega⟩
      have h1 := edge_weight_nonneg hw hedge
      have h2 := PathB.cost_nonneg hw hp
      omega

theorem PathB.split_last {g : Graph} {S : Nat → Prop} {a x : Nat} {l : List Nat} {c : Int}
    (h : PathB g S a x l c) (u : Nat) :
    PathB g (fun y => S y ∧ y ≠ u) a x l c ∨
      (S u ∧ ∃ l1 c1 b w l2 c2, PathB g S a u l1 c1 ∧ Edge g u b w ∧
        PathB g (fun y => S y ∧ y ≠ u) b x l2 c2 ∧ c = c1 + (w + c2)) := by
  induction h with
  | nil a => exact Or.inl (.nil a)
  | @cons a b x w l' c' hSa hedge hp ih =>
    rcases ih with hL | ⟨hSu, l1, c1, b', w', l2, c2, hp1, hedge', hp2, hceq⟩
    · by_cases hau : a = u
      · subst hau
        exact Or.inr ⟨hSa, [a], 0, b, w, l', c', .nil a, hedge, hL, by omega⟩
      · exact Or.inl (.cons ⟨hSa, hau⟩ hedge hL)
    · exact Or.inr ⟨hSu, a :: l1, w + c1, b', w', l2, c2, .cons hSa hedge hp1, hedge', hp2,
        by omega⟩

theorem PathB.mem_suffix {g : Graph} (hw : nonneg g) {S : Nat → Prop} {a x v : Nat}
    {l : List Nat} {c : Int} (h : PathB g S a x l c) (hv : v ∈ l) :
    ∃ l2 c2, PathB g S v x l2 c2 ∧ l2.Sublist l ∧ c2 ≤ c := by
  induction h with
  | nil a =>
    rw [List.mem_singleton.mp hv]
    exact ⟨[a], 0, .nil a, List.Sublist.refl _, le_refl 0⟩
  | @cons a b x w l' c' hSa hedge hp ih =>
    rcases List.mem_cons.mp hv with h1 | h2
    · subst h1
      exact ⟨v :: l', w + c', .cons hSa hedge hp, List.Sublist.refl _, le_refl _⟩
    · obtain ⟨l2, c2, hp2, hsub, hle⟩ := ih h2
      have h1 := edge_weight_nonneg hw hedge
      exact ⟨l2, c2, hp2, hsub.trans (List.sublist_cons_self a l'), by omega⟩

theorem PathB.node_dedup {g : Graph} (hw : nonneg g) {S : Nat → Prop} {a x : Nat}
    {l : List Nat} {c : Int} (h : PathB g S a x l c) :
    ∃ l' c', PathB g S a x l' c' ∧ l'.Nodup ∧ c' ≤ c := by
  induction h with
  | nil a => exact ⟨[a], 0, .nil a, List.nodup_singleton a, le_refl 0⟩
  | @cons a b x w l' c' hSa hedge hp ih =>
    obtain ⟨l2, c2, hp2, hnd2, hle2⟩ := ih
    by_cases hal : a ∈ l2
    · obtain ⟨l3, c3, hp3, hsub, hle3⟩ := PathB.mem_suffix hw hp2 hal
      have h1 := edge_weight_nonneg hw hedge
      exact ⟨l3, c3, hp3, hnd2.sublist hsub, by omega⟩
    · exact ⟨a :: l2, w + c2, .cons hSa hedge hp2, List.nodup_cons.mpr ⟨hal, hnd2⟩, by omega⟩

theorem PathB.cost_le {g : Graph} (hw : nonneg g) {S : Nat → Prop} {a x : Nat}
    {l : List Nat} {c : Int} (h : PathB g S a x l c) :
    c ≤ ((l.length : Int) - 1) * totalWeight g := by
  induction h with
  | nil a => simp
  | @cons a b x w l' c' _ hedge hp ih =>
    have h1 := edge_weight_le_total hw hedge
    have h2 : ((l'.length : Int)) * totalWeight g =
        totalWeight g + ((l'.length : Int) - 1) * totalWeight g := by ring
    have h3 : (((a :: l').length : Int) - 1) = (l'.length : Int) := by
      simp
    rw [h3, h2]
    omega

theorem PathB.append {g : Graph} {S : Nat → Prop} {a b : Nat} {l1 : List Nat}
    {c1 : Int} (h1 : PathB g S a b l1 c1) :
    ∀ {x : Nat} {l2 : List Nat} {c2 : Int}, PathB g S b x l2 c2 →
      ∃ l, PathB g S a x l (c1 + c2) := by
  induction h1 with
  | nil a =>
    intro x l2 c2 h2
    have h0 : (0 : Int) + c2 = c2 := by omega
    rw [h0]
    exact ⟨l2, h2⟩
  | @cons a bb xx ww ll cc hS hedge hp ih =>
    intro x l2 c2 h2
    obtain ⟨l, hl⟩ := ih h2
    have h0 : ww + cc + c2 = ww + (cc + c2) := by omega
    rw [h0]
    exact ⟨a :: l, .cons hS hedge hl⟩

theorem adjl_edge {g : Graph} {u : Nat} {e : AdjListNode} (he : e ∈ adjl g u) :
    Edge g u e.dest e.weight := he

theorem findMinU_zero (visited : List Bool) (dist : List Int) :
    findMinU 0 visited dist = (INFINITY, -1) := rfl

theorem findMinU_succ (n : Nat) (visited : List Bool) (dist : List Int) :
    findMinU (n + 1) visited dist =
      (if visited.getD n false = false ∧ dist.getD n 0 ≤ (findMinU n visited dist).1 then
        (dist.getD n 0, (n : Int))
      else findMinU n visited dist) := by
  unfold findMinU
  rw [List.range_succ, List.foldl_append, List.foldl_cons, List.foldl_nil]

/-- Full characterisation of the minimum scan: either every node below `n` is
visited and the scan returns `(INFINITY, -1)`, or it returns the distance and
index of an unvisited node of minimum distance, the last such index. -/
theorem findMinU_char (visited : List Bool) (dist : List Int) :
    ∀ n, (∀ v, v < n → dist.getD v 0 ≤ INFINITY) →
      ((∀ v, v < n → visited.getD v false = true) ∧
        findMinU n visited dist = (INFINITY, -1)) ∨
      (∃ u, u < n ∧ visited.getD u false = false ∧
        findMinU n visited dist = (dist.getD u 0, (u : Int)) ∧
        (∀ v, v < n → visited.getD v false = false → dist.getD u 0 ≤ dist.getD v 0) ∧
        (∀ v, v < n → visited.getD v false = false →
          dist.getD v 0 = dist.getD u 0 → u ≤ v → v = u)) := by
  intro n
  induction n with
  | zero =>
    intro _
    exact Or.inl ⟨fun v hv => absurd hv (Nat.not_lt_zero v), rfl⟩
  | succ n ih =>
    intro hlt
    have hlt' : ∀ v, v < n → dist.getD v 0 ≤ INFINITY := fun v hv => hlt v (by omega)
    rw [findMinU_succ]
    rcases ih hlt' with ⟨hall, heq⟩ | ⟨u, hun, huv, heq, hmin, htie⟩
    · by_cases hvn : visited.getD n false = false
      · rw [heq]
        have hcond : visited.getD n false = false ∧ dist.getD n 0 ≤ INFINITY :=
          ⟨hvn, hlt n (by omega)⟩
        rw [if_pos (by simpa using hcond)]
        refine Or.inr ⟨n, by omega, hvn, rfl, ?_, ?_⟩
        · intro v hv hvf
          rcases Nat.lt_succ_iff_lt_or_eq.mp hv with h1 | h1
          · rw [hall v h1] at hvf; simp at hvf
          · subst h1; exact le_refl _
        · intro v hv hvf _ _
          rcases Nat.lt_succ_iff_lt_or_eq.mp hv with h1 | h1
          · rw [hall v h1] at hvf; simp at hvf
          · exact h1
      · rw [heq, if_neg (fun hc => hvn hc.1)]
        refine Or.inl ⟨?_, rfl⟩
        intro v hv
        rcases Nat.lt_succ_iff_lt_or_eq.mp hv with h1 | h1
        · exact hall v h1
        · subst h1
          simpa using hvn
    · rw [heq]
      by_cases hvn : visited.getD n false = false
      · by_cases hle : dist.getD n 0 ≤ dist.getD u 0
        · rw [if_pos ⟨hvn, hle⟩]
          refine Or.inr ⟨n, by omega, hvn, rfl, ?_, ?_⟩
          · intro v hv hvf
            rcases Nat.lt_succ_iff_lt_or_eq.mp hv with h1 | h1
            · exact le_trans hle (hmin v h1 hvf)
            · subst h1; exact le_refl _
          · intro v hv hvf hde hue
            rcases Nat.lt_succ_iff_lt_or_eq.mp hv with h1 | h1
            · omega
            · exact h1
        · rw [if_neg (fun hc => hle hc.2)]
          refine Or.inr ⟨u, by omega, huv, rfl, ?_, ?_⟩
          · intro v hv hvf
            rcases Nat.lt_succ_iff_lt_or_eq.mp hv with h1 | h1
            · exact hmin v h1 hvf
            · subst h1; omega
          · intro v hv hvf hde hue
            rcases Nat.lt_succ_iff_lt_or_eq.mp hv with h1 | h1
            · exact htie v h1 hvf hde hue
            · subst h1; omega
      · rw [if_neg (fun hc => hvn hc.1)]
        refine Or.inr ⟨u, by omega, huv, rfl, ?_, ?_⟩
        · intro v hv hvf
          rcases Nat.lt_succ_iff_lt_or_eq.mp hv with h1 | h1
          · exact hmin v h1 hvf
          · subst h1; exact absurd hvf hvn
        · intro v hv hvf hde hue
          rcases Nat.lt_succ_iff_lt_or_eq.mp hv with h1 | h1
          · exact htie v h1 hvf hde hue
          · subst h1; exact absurd hvf hvn

theorem reach_lt_INF {g : Graph} (hwf : WF g) (hw : nonneg g)
    (hb : (g.num_nodes : Int) * totalWeight g < INFINITY) {s v : Nat}
    (hs : s < g.num_nodes) (h : ReachT g s v) :
    ∃ l c, PathB g anyNode s v l c ∧ c < INFINITY := by
  obtain ⟨l, c, hp⟩ := h
  obtain ⟨l', c', hp', hnd, _⟩ := PathB.node_dedup hw hp
  have hlt := PathB.nodes_lt hwf hp' hs
  have hlen : l'.length ≤ g.num_nodes := nodup_length_le l' g.num_nodes hnd hlt
  have hcost := PathB.cost_le hw hp'
  have htw := totalWeight_nonneg hw
  have h1 : ((l'.length : Int) - 1) * totalWeight g ≤
      (g.num_nodes : Int) * totalWeight g := by
    apply mul_le_mul_of_nonneg_right _ htw
    have : (l'.length : Int) ≤ (g.num_nodes : Int) := by exact_mod_cast hlen
    omega
  exact ⟨l', c', hp', by omega⟩

end Transit

theorem getD_set {α : Type} (l : List α) (i j : Nat) (a d : α) :
    (l.set i a).getD j d = if j = i ∧ i < l.length then a else l.getD j d := by
  by_cases h : j = i ∧ i < l.length
  · rw [if_pos h, h.1, getD_set_self _ _ _ _ h.2]
  · rw [if_neg h]
    by_cases hij : i = j
    · subst hij
      have hlen : l.length ≤ i := by
        by_contra hc
        exact h ⟨rfl, by omega⟩
      rw [List.set_eq_of_length_le hlen]
    · exact getD_set_ne _ _ _ _ _ hij

namespace Transit

/-! Lemmas about the relaxation loop. -/

theorem relax_visited (u : Nat) : ∀ (es : List AdjListNode) (st : DijkState),
    (relax u es st).visited = st.visited := by
  intro es
  induction es with
  | nil => intro st; rfl
  | cons e rest ih =>
    intro st
    rw [relax]
    split
    · rw [ih]
    · rw [ih]

theorem relax_dist_length (u : Nat) : ∀ (es : List AdjListNode) (st : DijkState),
    (relax u es st).dist.length = st.dist.length := by
  intro es
  induction es with
  | nil => intro st; rfl
  | cons e rest ih =>
    intro st
    rw [relax]
    split
    · rw [ih]; simp
    · rw [ih]

theorem relax_parent_length (u : Nat) : ∀ (es : List AdjListNode) (st : DijkState),
    (relax u es st).parent.length = st.parent.length := by
  intro es
  induction es with
  | nil => intro st; rfl
  | cons e rest ih =>
    intro st
    rw [relax]
    split
    · rw [ih]; simp
    · rw [ih]

theorem relax_dist_le (u : Nat) : ∀ (es : List AdjListNode) (st : DijkState) (v : Nat),
    (relax u es st).dist.getD v 0 ≤ st.dist.getD v 0 := by
  intro es
  induction es with
  | nil => intro st v; exact le_refl _
  | cons e rest ih =>
    intro st v
    rw [relax]
    split
    · rename_i hcond
      refine le_trans (ih _ v) ?_
      rw [getD_set]
      split
      · rename_i hj
        rw [hj.1]
        omega
      · exact le_refl _
    · exact ih st v

theorem relax_visited_entries (u : Nat) : ∀ (es : List AdjListNode) (st : DijkState) (v : Nat),
    st.visited.getD v false = true →
      (relax u es st).dist.getD v 0 = st.dist.getD v 0 ∧
      (relax u es st).parent.getD v (-1) = st.parent.getD v (-1) := by
  intro es
  induction es with
  | nil => intro st v _; exact ⟨rfl, rfl⟩
  | cons e rest ih =>
    intro st v hv
    rw [relax]
    split
    · rename_i hcond
      have hne : v ≠ e.dest := fun he => by rw [he, hcond.1] at hv; cases hv
      obtain ⟨h1, h2⟩ := ih
        { st with dist := st.dist.set e.dest (st.dist.getD u 0 + e.weight)
                  parent := st.parent.set e.dest (u : Int) } v hv
      refine ⟨?_, ?_⟩
      · rw [h1]
        exact getD_set_ne _ _ _ _ _ (fun h => hne h.symm)
      · rw [h2]
        exact getD_set_ne _ _ _ _ _ (fun h => hne h.symm)
    · exact ih st v hv

theorem relax_bounds (u : Nat) {n : Nat} (hu : u < n) :
    ∀ (es : List AdjListNode) (st : DijkState), (∀ e ∈ es, 0 ≤ e.weight) →
      (∀ v, v < n → 0 ≤ st.dist.getD v 0 ∧ st.dist.getD v 0 ≤ INFINITY) →
      ∀ v, v < n → 0 ≤ (relax u es st).dist.getD v 0 ∧
        (relax u es st).dist.getD v 0 ≤ INFINITY := by
  intro es
  induction es with
  | nil => intro st _ hpre v hv; exact hpre v hv
  | cons e rest ih =>
    intro st hw hpre v hv
    rw [relax]
    split
    · rename_i hcond
      refine ih _ (fun e' he' => hw e' (List.mem_cons_of_mem e he')) ?_ v hv
      intro y hy
      show 0 ≤ (st.dist.set e.dest (st.dist.getD u 0 + e.weight)).getD y 0 ∧
        (st.dist.set e.dest (st.dist.getD u 0 + e.weight)).getD y 0 ≤ INFINITY
      rw [getD_set]
      split
      · rename_i hj
        have h1 := (hpre u hu).1
        have h2 := hw e (List.mem_cons_self e rest)
        have h3 := hcond.2.2
        have h4 := (hpre y hy).2
        rw [hj.1] at h4
        constructor
        · omega
        · omega
      · exact hpre y hy
    · exact ih st (fun e' he' => hw e' (List.mem_cons_of_mem e he')) hpre v hv

theorem relax_edge_ub (u : Nat) {n : Nat} :
    ∀ (es : List AdjListNode) (st : DijkState),
      st.visited.getD u false = true → st.dist.length = n → (∀ e ∈ es, e.dest < n) →
      ∀ e ∈ es, st.visited.getD e.dest false = false → st.dist.getD u 0 ≠ INFINITY →
        (relax u es st).dist.getD e.dest 0 ≤ st.dist.getD u 0 + e.weight := by
  intro es
  induction es with
  | nil => intro st _ _ _ e he; cases he
  | cons e0 rest ih =>
    intro st hvisu hlen hdest e he hde hdu
    have hu_ne : u ≠ e0.dest → True := fun _ => trivial
    rw [relax]
    split
    · rename_i hcond
      set st' : DijkState :=
        { st with dist := st.dist.set e0.dest (st.dist.getD u 0 + e0.weight)
                  parent := st.parent.set e0.dest (u : Int) } with hst'
      have hvu' : st'.visited.getD u false = true := hvisu
      have hdu' : st'.dist.getD u 0 = st.dist.getD u 0 := by
        show (st.dist.set e0.dest (st.dist.getD u 0 + e0.weight)).getD u 0 = st.dist.getD u 0
        have hne : u ≠ e0.dest := by
          intro hh
          rw [← hh] at hcond
          rw [hcond.1] at hvisu
          cases hvisu
        exact getD_set_ne _ _ _ _ _ (fun h => hne h.symm)
      rcases List.mem_cons.mp he with rfl | hr
      · -- the head edge was relaxed to exactly dist[u] + w
        refine le_trans (relax_dist_le u rest st' e.dest) ?_
        show (st.dist.set e.dest (st.dist.getD u 0 + e.weight)).getD e.dest 0 ≤
          st.dist.getD u 0 + e.weight
        rw [getD_set]
        split
        · exact le_refl _
        · rename_i hj
          push_neg at hj
          have h5 := hj rfl
          rw [hlen] at h5
          have := hdest e (List.mem_cons_self e rest)
          omega
      · have := ih st' hvu' (by simp [hst', hlen])
          (fun e' he' => hdest e' (List.mem_cons_of_mem e0 he')) e hr hde (by rw [hdu']; exact hdu)
        rw [hdu'] at this
        exact this
    · rename_i hcond
      rcases List.mem_cons.mp he with rfl | hr
      · -- the head edge was already no better than dist[e.dest]
        have hnb : ¬ (st.dist.getD u 0 + e.weight < st.dist.getD e.dest 0) := by
          intro hlt
          exact hcond ⟨hde, hdu, hlt⟩
        refine le_trans (relax_dist_le u rest st e.dest) ?_
        omega
      · exact ih st hvisu hlen (fun e' he' => hdest e' (List.mem_cons_of_mem e0 he')) e hr hde hdu

theorem relax_achieved {g : Graph} {s : Nat} (u : Nat) {n : Nat} (hu : u < n) :
    ∀ (es : List AdjListNode) (st : DijkState),
      (∀ e ∈ es, Edge g u e.dest e.weight) → (∀ e ∈ es, e.dest < n) →
      st.dist.length = n → st.visited.getD u false = true →
      (∀ v, v < n → st.dist.getD v 0 ≠ INFINITY →
        ∃ l, PathB g (visP st) s v l (st.dist.getD v 0)) →
      ∀ v, v < n → (relax u es st).dist.getD v 0 ≠ INFINITY →
        ∃ l, PathB g (visP st) s v l ((relax u es st).dist.getD v 0) := by
  intro es
  induction es with
  | nil => intro st _ _ _ _ hach v hv hne; exact hach v hv hne
  | cons e rest ih =>
    intro st hes hdest hlen hvisu hach v hv hne
    by_cases hcond : st.visited.getD e.dest false = false ∧ st.dist.getD u 0 ≠ INFINITY ∧
        st.dist.getD u 0 + e.weight < st.dist.getD e.dest 0
    · rw [relax, if_pos hcond] at hne ⊢
      set st' : DijkState :=
        { st with dist := st.dist.set e.dest (st.dist.getD u 0 + e.weight)
                  parent := st.parent.set e.dest (u : Int) } with hst'
      have hach' : ∀ y, y < n → st'.dist.getD y 0 ≠ INFINITY →
          ∃ l, PathB g (visP st') s y l (st'.dist.getD y 0) := by
        intro y hy hney
        show ∃ l, PathB g (visP st) s y l
          ((st.dist.set e.dest (st.dist.getD u 0 + e.weight)).getD y 0)
        rw [getD_set]
        rw [show st'.dist.getD y 0 =
          (st.dist.set e.dest (st.dist.getD u 0 + e.weight)).getD y 0 from rfl,
          getD_set] at hney
        split at hney
        · rename_i hj
          rw [if_pos hj]
          obtain ⟨l, hl⟩ := hach u hu hcond.2.1
          have hpath := PathB.append_edge hl (show visP st u from hvisu)
            (hes e (List.mem_cons_self e rest))
          rw [hj.1]
          exact ⟨l ++ [e.dest], hpath⟩
        · rename_i hj
          rw [if_neg hj]
          exact hach y hy hney
      exact ih st' (fun e' he' => hes e' (List.mem_cons_of_mem e he'))
        (fun e' he' => hdest e' (List.mem_cons_of_mem e he')) (by simp [hst', hlen])
        hvisu hach' v hv hne
    · rw [relax, if_neg hcond] at hne ⊢
      exact ih st (fun e' he' => hes e' (List.mem_cons_of_mem e he'))
        (fun e' he' => hdest e' (List.mem_cons_of_mem e he')) hlen hvisu hach v hv hne

theorem relax_parent_changes (u : Nat) {n : Nat} :
    ∀ (es : List AdjListNode) (st : DijkState),
      (∀ e ∈ es, e.dest < n) → st.dist.length = n → st.parent.length = n →
      (∀ v, v < n → st.dist.getD v 0 ≤ INFINITY) →
      ∀ v, v < n →
        ((relax u es st).parent.getD v (-1) = st.parent.getD v (-1) ∧
          (relax u es st).dist.getD v 0 = st.dist.getD v 0) ∨
        (st.visited.getD v false = false ∧ (relax u es st).parent.getD v (-1) = (u : Int) ∧
          (relax u es st).dist.getD v 0 ≠ INFINITY) := by
  intro es
  induction es with
  | nil => intro st _ _ _ _ v _; exact Or.inl ⟨rfl, rfl⟩
  | cons e rest ih =>
    intro st hdest hdl hpl hbnd v hv
    have hdn : e.dest < n := hdest e (List.mem_cons_self e rest)
    by_cases hcond : st.visited.getD e.dest false = false ∧ st.dist.getD u 0 ≠ INFINITY ∧
        st.dist.getD u 0 + e.weight < st.dist.getD e.dest 0
    · rw [relax, if_pos hcond]
      set st' : DijkState :=
        { st with dist := st.dist.set e.dest (st.dist.getD u 0 + e.weight)
                  parent := st.parent.set e.dest (u : Int) } with hst'
      have hd_set : ∀ y, st'.dist.getD y 0 =
          if y = e.dest then st.dist.getD u 0 + e.weight else st.dist.getD y 0 := by
        intro y
        show (st.dist.set e.dest (st.dist.getD u 0 + e.weight)).getD y 0 = _
        rw [getD_set]
        by_cases hy : y = e.dest
        · rw [if_pos ⟨hy, by omega⟩, if_pos hy]
        · rw [if_neg (fun hc => hy hc.1), if_neg hy]
      have hp_set : ∀ y, st'.parent.getD y (-1) =
          if y = e.dest then (u : Int) else st.parent.getD y (-1) := by
        intro y
        show (st.parent.set e.dest (u : Int)).getD y (-1) = _
        rw [getD_set]
        by_cases hy : y = e.dest
        · rw [if_pos ⟨hy, by omega⟩, if_pos hy]
        · rw [if_neg (fun hc => hy hc.1), if_neg hy]
      have hbnd' : ∀ y, y < n → st'.dist.getD y 0 ≤ INFINITY := by
        intro y hy
        rw [hd_set y]
        by_cases hyd : y = e.dest
        · rw [if_pos hyd]
          have h4 := hbnd e.dest hdn
          omega
        · rw [if_neg hyd]
          exact hbnd y hy
      have hrec := ih st' (fun e' he' => hdest e' (List.mem_cons_of_mem e he'))
        (by simp [hst', hdl]) (by simp [hst', hpl]) hbnd' v hv
      rcases hrec with ⟨hp, hd⟩ | ⟨hv1, hp1, hd1⟩
      · by_cases hvd : v = e.dest
        · refine Or.inr ⟨hvd ▸ hcond.1, ?_, ?_⟩
          · rw [hp, hp_set v, if_pos hvd]
          · rw [hd, hd_set v, if_pos hvd]
            have h4 := hbnd e.dest hdn
            omega
        · refine Or.inl ⟨?_, ?_⟩
          · rw [hp, hp_set v, if_neg hvd]
          · rw [hd, hd_set v, if_neg hvd]
      · refine Or.inr ⟨?_, hp1, hd1⟩
        by_cases hvd : v = e.dest
        · exact hvd ▸ hcond.1
        · exact hv1
    · rw [relax, if_neg hcond]
      exact ih st (fun e' he' => hdest e' (List.mem_cons_of_mem e he')) hdl hpl hbnd v hv

theorem relax_zero_s (u : Nat) {n s : Nat} (hu : u < n) :
    ∀ (es : List AdjListNode) (st : DijkState),
      (∀ e ∈ es, 0 ≤ e.weight) →
      (∀ v, v < n → 0 ≤ st.dist.getD v 0) → st.dist.getD s 0 = 0 →
      (relax u es st).dist.getD s 0 = 0 ∧
        (relax u es st).parent.getD s (-1) = st.parent.getD s (-1) := by
  intro es
  induction es with
  | nil => intro st _ _ hds; exact ⟨hds, rfl⟩
  | cons e rest ih =>
    intro st hw hnn hds
    by_cases hcond : st.visited.getD e.dest false = false ∧ st.dist.getD u 0 ≠ INFINITY ∧
        st.dist.getD u 0 + e.weight < st.dist.getD e.dest 0
    · rw [relax, if_pos hcond]
      have hse : e.dest ≠ s := by
        intro hh
        have h1 := hnn u hu
        have h2 := hw e (List.mem_cons_self e rest)
        have h3 := hcond.2.2
        rw [hh, hds] at h3
        omega
      set st' : DijkState :=
        { st with dist := st.dist.set e.dest (st.dist.getD u 0 + e.weight)
                  parent := st.parent.set e.dest (u : Int) } with hst'
      have hds' : st'.dist.getD s 0 = 0 := by
        show (st.dist.set e.dest (st.dist.getD u 0 + e.weight)).getD s 0 = 0
        rw [getD_set_ne _ _ _ _ _ hse]
        exact hds
      have hnn' : ∀ v, v < n → 0 ≤ st'.dist.getD v 0 := by
        intro v hv
        show 0 ≤ (st.dist.set e.dest (st.dist.getD u 0 + e.weight)).getD v 0
        rw [getD_set]
        split
        · have h1 := hnn u hu
          have h2 := hw e (List.mem_cons_self e rest)
          omega
        · exact hnn v hv
      obtain ⟨h1, h2⟩ := ih st' (fun e' he' => hw e' (List.mem_cons_of_mem e he')) hnn' hds'
      refine ⟨h1, ?_⟩
      rw [h2]
      show (st.parent.set e.dest (u : Int)).getD s (-1) = st.parent.getD s (-1)
      rw [getD_set_ne _ _ _ _ _ hse]
    · rw [relax, if_neg hcond]
      exact ih st (fun e' he' => hw e' (List.mem_cons_of_mem e he')) hnn hds

/-- When the scan selects an unsettled node of minimum tentative distance, that
tentative distance is a lower bound on the cost of every path to it. -/
theorem settle_opt {g : Graph} {s : Nat} (hwf : WF g) (hw : nonneg g) (hs : s < g.num_nodes)
    {st : DijkState} (inv : DInv g s st) {u : Nat} (hu : u < g.num_nodes)
    (huv : st.visited.getD u false = false)
    (hmin : ∀ v, v < g.num_nodes → st.visited.getD v false = false →
      st.dist.getD u 0 ≤ st.dist.getD v 0) :
    ∀ l c, PathB g anyNode s u l c → st.dist.getD u 0 ≤ c := by
  intro l c hp
  rcases PathB.first_exit hw (visP st) hp with hL | ⟨y, l1, c1, c2, hy, hmem, hp1, hc2, hceq⟩
  · exact inv.unsettledUB u hu huv l c hL
  · have hyn : y < g.num_nodes := PathB.nodes_lt hwf hp hs y hmem
    have hyv : st.visited.getD y false = false := by
      cases hgy : st.visited.getD y false with
      | false => rfl
      | true => exact absurd hgy hy
    have h1 := hmin y hyn hyv
    have h2 := inv.unsettledUB y hyn hyv l1 c1 hp1
    omega

/-- One settle-and-relax iteration preserves the Dijkstra invariant and
decreases the number of unsettled nodes by one. -/
theorem dstep_inv {g : Graph} {s : Nat} (hwf : WF g) (hw : nonneg g) (hs : s < g.num_nodes)
    {st : DijkState} (inv : DInv g s st) (u : Nat) (hu : u < g.num_nodes)
    (huv : st.visited.getD u false = false)
    (hmin : ∀ v, v < g.num_nodes → st.visited.getD v false = false →
      st.dist.getD u 0 ≤ st.dist.getD v 0) :
    DInv g s (relax u (adjl g u) { st with visited := st.visited.set u true }) ∧
    (relax u (adjl g u)
        { st with visited := st.visited.set u true }).visited.count false + 1 =
      st.visited.count false := by
  set n := g.num_nodes with hn
  set st1 : DijkState := { st with visited := st.visited.set u true } with hst1
  set es := adjl g u with hes_def
  have hes : ∀ e ∈ es, Edge g u e.dest e.weight := fun e he => adjl_edge he
  have hdest : ∀ e ∈ es, e.dest < n := fun e he => edge_dest_lt hwf (adjl_edge he)
  have hwts : ∀ e ∈ es, 0 ≤ e.weight := fun e he => edge_weight_nonneg hw (adjl_edge he)
  have hvis1 : ∀ v, st1.visited.getD v false =
      if v = u then true else st.visited.getD v false := by
    intro v
    show (st.visited.set u true).getD v false = _
    rw [getD_set]
    by_cases hv : v = u
    · rw [if_pos ⟨hv, by rw [inv.vlen]; exact hu⟩, if_pos hv]
    · rw [if_neg (fun hc => hv hc.1), if_neg hv]
  have hvis1u : st1.visited.getD u false = true := by rw [hvis1, if_pos rfl]
  set st2 := relax u es st1 with hst2
  have hv21 : st2.visited = st1.visited := relax_visited u es st1
  have hvisPeq : visP st2 = visP st1 := by
    unfold visP
    rw [hv21]
  have hd1 : st1.dist = st.dist := rfl
  have hp1eq : st1.parent = st.parent := rfl
  have hdlen2 : st2.dist.length = n := by rw [relax_dist_length, hd1, inv.dlen]
  have hplen2 : st2.parent.length = n := by rw [relax_parent_length, hp1eq, inv.plen]
  have hvlen2 : st2.visited.length = n := by rw [hv21]; show (st.visited.set u true).length = n; rw [List.length_set, inv.vlen]
  have hUopt : ∀ l c, PathB g anyNode s u l c → st.dist.getD u 0 ≤ c :=
    settle_opt hwf hw hs inv hu huv hmin
  have hbounds2 : ∀ v, v < n → 0 ≤ st2.dist.getD v 0 ∧ st2.dist.getD v 0 ≤ INFINITY :=
    relax_bounds u hu es st1 hwts (fun v hv => ⟨inv.nonnegD v hv, inv.leInf v hv⟩)
  have hachieved2 : ∀ v, v < n → st2.dist.getD v 0 ≠ INFINITY →
      ∃ l, PathB g (visP st2) s v l (st2.dist.getD v 0) := by
    rw [hvisPeq]
    refine relax_achieved u hu es st1 hes hdest (by rw [hd1, inv.dlen]) hvis1u ?_
    intro v hv hne
    obtain ⟨l, hl⟩ := inv.achieved v hv hne
    refine ⟨l, hl.mono ?_⟩
    intro y hy
    show st1.visited.getD y false = true
    rw [hvis1]
    by_cases hyu : y = u
    · rw [if_pos hyu]
    · rw [if_neg hyu]; exact hy
  have hchanges := relax_parent_changes u es st1 hdest (by rw [hd1, inv.dlen])
    (by rw [hp1eq, inv.plen]) (fun v hv => inv.leInf v hv)
  have hfixed : ∀ v, st1.visited.getD v false = true →
      st2.dist.getD v 0 = st.dist.getD v 0 ∧
      st2.parent.getD v (-1) = st.parent.getD v (-1) :=
    fun v hv => relax_visited_entries u es st1 v hv
  have hdu2 : st2.dist.getD u 0 = st.dist.getD u 0 := (hfixed u hvis1u).1
  have hdle : ∀ v, st2.dist.getD v 0 ≤ st.dist.getD v 0 := fun v => relax_dist_le u es st1 v
  have hsmono : ∀ y, visP st y → visP st1 y := by
    intro y hy
    show st1.visited.getD y false = true
    rw [hvis1]
    by_cases hyu : y = u
    · rw [if_pos hyu]
    · rw [if_neg hyu]; exact hy
  refine ⟨⟨hdlen2, hvlen2, hplen2, fun v hv => (hbounds2 v hv).1, fun v hv => (hbounds2 v hv).2,
    hachieved2, ?_, ?_, ?_, ?_, ?_, ?_⟩, ?_⟩
  · -- unsettledUB
    intro v hv hvis2 l c hp
    rw [hvisPeq] at hp
    have hvis1v : st1.visited.getD v false = false := by rw [← hv21]; exact hvis2
    have hvne : v ≠ u := by
      intro hh
      rw [hh, hvis1u] at hvis1v
      cases hvis1v
    have hvsv : st.visited.getD v false = false := by
      rw [hvis1, if_neg hvne] at hvis1v
      exact hvis1v
    have hSdown : ∀ y, visP st1 y ∧ y ≠ u → visP st y := by
      rintro y ⟨hy, hyne⟩
      have hy' : st1.visited.getD y false = true := hy
      rw [hvis1, if_neg hyne] at hy'
      exact hy'
    rcases hp.split_last u with hL | ⟨_, l1, c1, b, w, l2, c2, hpu, hedge, hp2, hceq⟩
    · have h1 := inv.unsettledUB v hv hvsv l c (hL.mono hSdown)
      have h2 := hdle v
      rw [hd1] at h2
      omega
    · have hc1 : st.dist.getD u 0 ≤ c1 := hUopt _ _ hpu.any_of
      have hwge : 0 ≤ w := edge_weight_nonneg hw hedge
      have hc2ge : 0 ≤ c2 := hp2.cost_nonneg hw
      by_cases hdu : st.dist.getD u 0 = INFINITY
      · have h2 := (hbounds2 v hv).2
        rw [hdu] at hc1
        omega
      · cases hp2 with
        | nil =>
          have hub := relax_edge_ub u es st1 hvis1u (by rw [hd1, inv.dlen]) hdest
            ⟨v, w⟩ hedge hvis1v (by rw [hd1]; exact hdu)
          rw [hd1] at hub
          have hfin : st2.dist.getD v 0 ≤ st.dist.getD u 0 + w := hub
          omega
        | @cons _ zz _ ww ll cc hSb hedge2 hp3 =>
          obtain ⟨hvb1, hbne⟩ := hSb
          have hvb : st.visited.getD b false = true := by
            have hvb1' : st1.visited.getD b false = true := hvb1
            rw [hvis1, if_neg hbne] at hvb1'
            exact hvb1'
          have hbn : b < n := edge_dest_lt hwf hedge
          have hpb : ∀ lx, PathB g anyNode s u lx c1 →
              PathB g anyNode s b (lx ++ [b]) (c1 + w) := by
            intro lx hx
            exact hx.append_edge trivial hedge
          obtain ⟨lu, hlu2⟩ : ∃ lx, PathB g anyNode s u lx c1 := ⟨l1, hpu.any_of⟩
          have hsb := inv.settledOpt b hbn hvb _ _ (hpb lu hlu2)
          by_cases hdb : st.dist.getD b 0 = INFINITY
          · have h2 := (hbounds2 v hv).2
            rw [hdb] at hsb
            omega
          · obtain ⟨lb, hlb⟩ := inv.achieved b hbn hdb
            have hp2' : PathB g (fun y => visP st1 y ∧ y ≠ u) b v (b :: ll) (ww + cc) :=
              .cons ⟨hvb1, hbne⟩ hedge2 hp3
            have hpmono : PathB g (visP st) b v (b :: ll) (ww + cc) := hp2'.mono hSdown
            obtain ⟨lfull, hfull⟩ := hlb.append hpmono
            have h5 := inv.unsettledUB v hv hvsv _ _ hfull
            have h7 := hdle v
            rw [hd1] at h7
            omega
  · -- settledOpt
    intro v hv hvis2 l c hp
    have hvis1v : st1.visited.getD v false = true := by rw [← hv21]; exact hvis2
    by_cases hvu : v = u
    · subst hvu
      rw [hdu2]
      exact hUopt l c hp
    · have hvst : st.visited.getD v false = true := by
        rw [hvis1, if_neg hvu] at hvis1v
        exact hvis1v
      rw [(hfixed v hvis1v).1]
      exact inv.settledOpt v hv hvst l c hp
  · -- dist_s
    exact (relax_zero_s u hu es st1 hwts (fun v hv => inv.nonnegD v hv) inv.dist_s).1
  · -- parent_s
    rw [(relax_zero_s u hu es st1 hwts (fun v hv => inv.nonnegD v hv) inv.dist_s).2]
    exact inv.parent_s
  · -- parentOK
    intro v hv hne
    rcases hchanges v hv with ⟨hp, hd⟩ | ⟨hv1, hp2, hd2⟩
    · rw [hp, hp1eq] at hne ⊢
      obtain ⟨u', h1, h2, h3, h4⟩ := inv.parentOK v hv hne
      refine ⟨u', h1, h2, ?_, ?_⟩
      · rw [hv21, hvis1]
        by_cases hq : u' = u
        · rw [if_pos hq]
        · rw [if_neg hq]; exact h3
      · rw [hd, hd1]
        exact h4
    · refine ⟨u, hp2, hu, ?_, hd2⟩
      rw [hv21, hvis1u]
  · -- order
    obtain ⟨ord, hnd, hmem, hpar⟩ := inv.order
    have huord : u ∉ ord := by
      intro hmm
      have := (hmem u).mp hmm
      rw [this.2] at huv
      cases huv
    refine ⟨ord ++ [u], ?_, ?_, ?_⟩
    · rw [List.nodup_append]
      exact ⟨hnd, List.nodup_singleton u, by
        intro a ha hb
        rw [List.mem_singleton] at hb
        exact huord (hb ▸ ha)⟩
    · intro v
      rw [List.mem_append, List.mem_singleton, hv21, hvis1]
      constructor
      · rintro (hvo | rfl)
        · have := (hmem v).mp hvo
          refine ⟨this.1, ?_⟩
          by_cases hq : v = u
          · rw [if_pos hq]
          · rw [if_neg hq]; exact this.2
        · exact ⟨hu, by rw [if_pos rfl]⟩
      · rintro ⟨hvn, hvv⟩
        by_cases hq : v = u
        · exact Or.inr hq
        · rw [if_neg hq] at hvv
          exact Or.inl ((hmem v).mpr ⟨hvn, hvv⟩)
    · intro v hv hne
      rcases hchanges v hv with ⟨hp, hd⟩ | ⟨hv1, hp2, hd2⟩
      · rw [hp, hp1eq] at hne ⊢
        obtain ⟨u', h1, h2, h3⟩ := hpar v hv hne
        refine ⟨u', h1, List.mem_append_left _ h2, ?_⟩
        intro hvm
        rw [List.mem_append, List.mem_singleton] at hvm
        rcases hvm with hvo | rfl
        · rw [pos_append_of_mem _ h2, pos_append_of_mem _ hvo]
          exact h3 hvo
        · rw [pos_append_of_mem _ h2, pos_append_self _ huord]
          exact pos_lt_of_mem h2
      · have hvne : v ≠ u := by
          intro hh
          rw [hh, hvis1u] at hv1
          cases hv1
        have hvst : st.visited.getD v false = false := by
          rw [hvis1, if_neg hvne] at hv1
          exact hv1
        refine ⟨u, hp2, List.mem_append_right _ (List.mem_singleton.mpr rfl), ?_⟩
        intro hvm
        rw [List.mem_append, List.mem_singleton] at hvm
        rcases hvm with hvo | hh
        · have := (hmem v).mp hvo
          rw [this.2] at hvst
          cases hvst
        · exact absurd hh hvne
  · -- unsettled count decreases by one
    rw [hv21]
    show (st.visited.set u true).count false + 1 = st.visited.count false
    exact count_false_set st.visited u (by rw [inv.vlen]; exact hu) huv

/-- The invariant holds after the initialisation loop of `dijkstra`. -/
theorem init_inv {g : Graph} {s : Nat} (hs : s < g.num_nodes) : DInv g s (initState g s) := by
  have hINF : (0 : Int) < INFINITY := by decide
  have hgd : ∀ v, v < g.num_nodes →
      (initState g s).dist.getD v 0 = if v = s then 0 else INFINITY := by
    intro v hv
    show ((List.replicate g.num_nodes INFINITY).set s 0).getD v 0 = _
    rw [getD_set]
    by_cases hvs : v = s
    · rw [if_pos ⟨hvs, by simpa using hs⟩, if_pos hvs]
    · rw [if_neg (fun hc => hvs hc.1), if_neg hvs]
      exact getD_replicate v INFINITY 0 hv
  have hvv : ∀ v, (initState g s).visited.getD v false = false := by
    intro v
    show (List.replicate g.num_nodes false).getD v false = false
    by_cases hv : v < g.num_nodes
    · exact getD_replicate v false false hv
    · exact List.getD_eq_default _ _ (by simp; omega)
  have hpp : ∀ v, (initState g s).parent.getD v (-1) = -1 := by
    intro v
    show (List.replicate g.num_nodes (-1)).getD v (-1) = -1
    by_cases hv : v < g.num_nodes
    · exact getD_replicate v (-1) (-1) hv
    · exact List.getD_eq_default _ _ (by simp; omega)
  refine ⟨by simp [initState], by simp [initState], by simp [initState], ?_, ?_, ?_, ?_, ?_,
    ?_, hpp s, ?_, ?_⟩
  · intro v hv
    rw [hgd v hv]
    split
    · exact le_refl 0
    · omega
  · intro v hv
    rw [hgd v hv]
    split
    · omega
    · exact le_refl _
  · intro v hv hne
    rw [hgd v hv] at hne ⊢
    split at hne
    · rename_i hvs
      subst hvs
      rw [if_pos rfl]
      exact ⟨[v], .nil v⟩
    · exact absurd rfl hne
  · intro v hv _ l c hp
    cases hp with
    | nil =>
      rw [hgd s hv]
      split
      · exact le_refl 0
      · rename_i hvs
        exact absurd rfl hvs
    | cons hS _ _ =>
      exact absurd (show (initState g s).visited.getD _ false = true from hS)
        (by rw [hvv]; exact fun h => Bool.noConfusion h)
  · intro v hv hvis
    rw [hvv v] at hvis
    cases hvis
  · rw [hgd s hs, if_pos rfl]
  · intro v hv hne
    rw [hpp v] at hne
    exact absurd rfl hne
  · refine ⟨[], List.nodup_nil, ?_, ?_⟩
    · intro v
      constructor
      · intro hv
        cases hv
      · rintro ⟨_, hvis⟩
        rw [hvv v] at hvis
        cases hvis
    · intro v hv hne
      rw [hpp v] at hne
      exact absurd rfl hne

/-- Running the main loop from an invariant state with enough unsettled nodes
left keeps the invariant and settles exactly one node per iteration. -/
theorem dloop_inv {g : Graph} {s : Nat} (hwf : WF g) (hw : nonneg g) (hs : s < g.num_nodes) :
    ∀ (fuel : Nat) (st : DijkState), DInv g s st → fuel + 1 ≤ st.visited.count false →
      DInv g s (dijkstraLoop g fuel st) ∧
      (dijkstraLoop g fuel st).visited.count false + fuel = st.visited.count false := by
  intro fuel
  induction fuel with
  | zero =>
    intro st inv _
    refine ⟨inv, ?_⟩
    simp only [dijkstraLoop]
    omega
  | succ f ih =>
    intro st inv hcount
    have hpos : 0 < st.visited.count false := by omega
    obtain ⟨v0, hv0len, hv0⟩ := count_false_exists _ hpos
    have hv0n : v0 < g.num_nodes := by rw [← inv.vlen]; exact hv0len
    rcases findMinU_char st.visited st.dist g.num_nodes inv.leInf with
      ⟨hall, heq⟩ | ⟨u, hun, huv, heq, hmin, _⟩
    · rw [hall v0 hv0n] at hv0
      cases hv0
    · have hne : ¬ ((u : Int) = -1) := by omega
      have hstep : dijkstraLoop g (f + 1) st = dijkstraLoop g f
          (relax u (adjl g u) { st with visited := st.visited.set u true }) := by
        show dijkstraLoop g (Nat.succ f) st = _
        rw [dijkstraLoop]
        simp only [heq, hne, if_false, Int.toNat_natCast]
      obtain ⟨inv2, hcnt2⟩ := dstep_inv hwf hw hs inv u hun huv hmin
      obtain ⟨inv3, hcnt3⟩ := ih _ inv2 (by omega)
      rw [hstep]
      exact ⟨inv3, by omega⟩

/-- After `dijkstra` completes, the invariant holds and exactly one node is
left unsettled. -/
theorem dijkstra_inv {g : Graph} {s : Nat} (hwf : WF g) (hw : nonneg g)
    (hs : s < g.num_nodes) :
    DInv g s (dijkstra g s) ∧ (dijkstra g s).visited.count false = 1 := by
  have hinit := @init_inv g s hs
  have hcnt : (initState g s).visited.count false = g.num_nodes := by
    show (List.replicate g.num_nodes false).count false = g.num_nodes
    simp
  have hn1 : 1 ≤ g.num_nodes := by omega
  have harg : g.num_nodes - 1 + 1 ≤ (initState g s).visited.count false := by
    rw [hcnt]
    omega
  obtain ⟨inv, hc⟩ := dloop_inv hwf hw hs (g.num_nodes - 1) (initState g s) hinit harg
  rw [hcnt] at hc
  refine ⟨inv, ?_⟩
  show (dijkstraLoop g (g.num_nodes - 1) (initState g s)).visited.count false = 1
  omega

end Transit

/-! Claim theorems. -/

/-- Claim C1: for every well-formed transit graph with non-negative edge
weights (whose total weight is small enough that no `int` overflow can occur)
and every valid source node, `dijkstra(graph, source)` yields
`distance[source] = 0`, and for every node `v` reachable from `source`,
`distance[v]` equals the minimum, over all directed paths from `source` to
`v`, of the sum of the edge weights along the path. -/
theorem C1_dijkstra_shortest_paths (g : Transit.Graph) (s : Nat)
    (hwf : Transit.WF g) (hs : s < g.num_nodes) (hw : Transit.nonneg g)
    (hb : (g.num_nodes : Int) * Transit.totalWeight g < Transit.INFINITY) :
    (Transit.dijkstra g s).dist.getD s 0 = 0 ∧
    ∀ v, v < g.num_nodes → Transit.ReachT g s v →
      Transit.IsMinDist g s v ((Transit.dijkstra g s).dist.getD v 0) := by
  obtain ⟨inv, hone⟩ := Transit.dijkstra_inv hwf hw hs
  refine ⟨inv.dist_s, ?_⟩
  intro v hv hreach
  have hlb : ∀ l c, Transit.PathB g Transit.anyNode s v l c →
      (Transit.dijkstra g s).dist.getD v 0 ≤ c := by
    intro l c hp
    cases hvis : (Transit.dijkstra g s).visited.getD v false with
    | true => exact inv.settledOpt v hv hvis l c hp
    | false =>
      rcases Transit.PathB.first_exit hw (Transit.visP (Transit.dijkstra g s)) hp with
        hL | ⟨y, l1, c1, c2, hy, hmem, hp1, hc2, hceq⟩
      · exact inv.unsettledUB v hv hvis l c hL
      · have hyn : y < g.num_nodes := Transit.PathB.nodes_lt hwf hp hs y hmem
        have hyf : (Transit.dijkstra g s).visited.getD y false = false := by
          cases hgy : (Transit.dijkstra g s).visited.getD y false with
          | false => rfl
          | true => exact absurd hgy hy
        have hyv : y = v := by
          refine count_false_unique (Transit.dijkstra g s).visited (by omega) y v ?_ ?_ hyf hvis
          · rw [inv.vlen]; exact hyn
          · rw [inv.vlen]; exact hv
        subst hyv
        have h1 := inv.unsettledUB y hyn hyf l1 c1 hp1
        omega
  have hfin : (Transit.dijkstra g s).dist.getD v 0 ≠ Transit.INFINITY := by
    intro hINF
    obtain ⟨l', c', hp', hlt⟩ := Transit.reach_lt_INF hwf hw hb hs hreach
    have := hlb l' c' hp'
    omega
  obtain ⟨l, hl⟩ := inv.achieved v hv hfin
  exact ⟨⟨l, hl.any_of⟩, hlb⟩

/-- Witness for C1: the transit scenario `A→B` 10, `B→C` 5, `A→C` 20 satisfies
every hypothesis, and the theorem applies to it. -/
theorem C1_dijkstra_shortest_paths_witness :
    (Transit.WF gABC ∧ 0 < gABC.num_nodes ∧ Transit.nonneg gABC ∧
      (gABC.num_nodes : Int) * Transit.totalWeight gABC < Transit.INFINITY) ∧
    ((Transit.dijkstra gABC 0).dist.getD 0 0 = 0 ∧
      ∀ v, v < gABC.num_nodes → Transit.ReachT gABC 0 v →
        Transit.IsMinDist gABC 0 v ((Transit.dijkstra gABC 0).dist.getD v 0)) :=
  ⟨⟨by decide, by decide, by decide, by decide⟩,
    C1_dijkstra_shortest_paths gABC 0 (by decide) (by decide) (by decide) (by decide)⟩

/-- Claim C5 counterexample: in the state reached by `dijkstra` on `gTie`
after one iteration, nodes 1 and 2 are unsettled and tied at minimum distance
1, yet the scan selects node 2 — the last minimum found — not the lowest index
1, and the full run records `parent[3] = 2` accordingly. -/
theorem C5_cex :
    Transit.dijkstraLoop gTie 1 (Transit.initState gTie 0) =
      ⟨[0, 1, 1, Transit.INFINITY], [true, false, false, false], [-1, 0, 0, -1]⟩ ∧
    [true, false, false, false].getD 1 false = false ∧
    ([0, 1, 1, Transit.INFINITY] : List Int).getD 1 0 = 1 ∧
    (∀ v, v < 4 → [true, false, false, false].getD v false = false →
      ([0, 1, 1, Transit.INFINITY] : List Int).getD 1 0 ≤
        ([0, 1, 1, Transit.INFINITY] : List Int).getD v 0) ∧
    (Transit.findMinU 4 [true, false, false, false] [0, 1, 1, Transit.INFINITY]).2 = 2 ∧
    ¬ (2 : Int) = 1 ∧
    (Transit.dijkstra gTie 0).parent.getD 3 (-1) = 2 := by decide

/-- Claim C5 as amended: the node selected by the minimum scan is an unsettled
node of minimum tentative distance, and among unsettled nodes tied for that
minimum the HIGHEST index is chosen (the last minimum found by the `<=` scan),
not the lowest. -/
theorem C5_scan_last_minimum (n : Nat) (visited : List Bool) (dist : List Int)
    (hbnd : ∀ v, v < n → dist.getD v 0 ≤ Transit.INFINITY)
    (hex : ∃ v, v < n ∧ visited.getD v false = false) :
    ∃ u, u < n ∧ visited.getD u false = false ∧
      (Transit.findMinU n visited dist).2 = (u : Int) ∧
      (∀ v, v < n → visited.getD v false = false → dist.getD u 0 ≤ dist.getD v 0) ∧
      (∀ v, v < n → visited.getD v false = false → dist.getD v 0 = dist.getD u 0 →
        v ≤ u) := by
  rcases Transit.findMinU_char visited dist n hbnd with ⟨hall, _⟩ |
    ⟨u, hun, huv, heq, hmin, htie⟩
  · obtain ⟨v, hv, hvf⟩ := hex
    rw [hall v hv] at hvf
    cases hvf
  · refine ⟨u, hun, huv, by rw [heq], hmin, ?_⟩
    intro v hv hvf hde
    by_cases hvu : v ≤ u
    · exact hvu
    · have := htie v hv hvf hde (by omega)
      omega

/-- Witness for the amended C5 at the `gTie` tie state. -/
theorem C5_scan_last_minimum_witness :
    ((∀ v, v < 4 → ([0, 1, 1, Transit.INFINITY] : List Int).getD v 0 ≤ Transit.INFINITY) ∧
      (∃ v, v < 4 ∧ [true, false, false, false].getD v false = false)) ∧
    (∃ u, u < 4 ∧ [true, false, false, false].getD u false = false ∧
      (Transit.findMinU 4 [true, false, false, false] [0, 1, 1, Transit.INFINITY]).2 =
        (u : Int) ∧
      (∀ v, v < 4 → [true, false, false, false].getD v false = false →
        ([0, 1, 1, Transit.INFINITY] : List Int).getD u 0 ≤
          ([0, 1, 1, Transit.INFINITY] : List Int).getD v 0) ∧
      (∀ v, v < 4 → [true, false, false, false].getD v false = false →
        ([0, 1, 1, Transit.INFINITY] : List Int).getD v 0 =
          ([0, 1, 1, Transit.INFINITY] : List Int).getD u 0 → v ≤ u)) :=
  ⟨⟨by decide, ⟨1, by decide⟩⟩,
    C5_scan_last_minimum 4 [true, false, false, false] [0, 1, 1, Transit.INFINITY]
      (by decide) ⟨1, by decide⟩⟩

/-- Claim C6 counterexample: on the edgeless three-node graph from source 0,
after one iteration every remaining unsettled node (1 and 2) has distance
`INFINITY`, yet `dijkstra` does not stop: it settles node 2 as well
(`visited[2] = true` in the final state). -/
theorem C6_cex :
    Transit.dijkstraLoop gIso3 1 (Transit.initState gIso3 0) =
      ⟨[0, Transit.INFINITY, Transit.INFINITY], [true, false, false], [-1, -1, -1]⟩ ∧
    (Transit.dijkstra gIso3 0).visited.getD 2 false = true ∧
    (Transit.dijkstra gIso3 0).dist.getD 2 0 = Transit.INFINITY := by decide

/-- Claim C6 as amended: the `u == -1` early stop fires only when every node
is already settled — an all-`INFINITY` unsettled remainder still gets selected
because the scan's `<=` accepts `INFINITY` — and settling such a node changes
nothing, because relaxation is guarded by `dist[u] != INFINITY`. -/
theorem C6_no_early_stop (n : Nat) (visited : List Bool) (dist : List Int)
    (hbnd : ∀ v, v < n → dist.getD v 0 ≤ Transit.INFINITY) :
    ((Transit.findMinU n visited dist).2 = -1 ↔
      ∀ v, v < n → visited.getD v false = true) ∧
    ∀ (u : Nat) (es : List Transit.AdjListNode) (st : Transit.DijkState),
      st.dist.getD u 0 = Transit.INFINITY → Transit.relax u es st = st := by
  constructor
  · constructor
    · intro hm1
      rcases Transit.findMinU_char visited dist n hbnd with ⟨hall, _⟩ |
        ⟨u, _, _, heq, _, _⟩
      · exact hall
      · rw [heq] at hm1
        simp at hm1
    · intro hall
      rcases Transit.findMinU_char visited dist n hbnd with ⟨_, heq⟩ |
        ⟨u, hun, huv, _, _, _⟩
      · rw [heq]
      · rw [hall u hun] at huv
        cases huv
  · intro u es
    induction es with
    | nil => intro st _; rfl
    | cons e rest ih =>
      intro st h
      rw [Transit.relax, if_neg (fun hc => hc.2.1 h)]
      exact ih st h

/-- Witness for the amended C6 at the `gIso3` end state. -/
theorem C6_no_early_stop_witness :
    (∀ v, v < 3 →
      ([0, Transit.INFINITY, Transit.INFINITY] : List Int).getD v 0 ≤ Transit.INFINITY) ∧
    (((Transit.findMinU 3 [true, true, true]
        [0, Transit.INFINITY, Transit.INFINITY]).2 = -1 ↔
      ∀ v, v < 3 → [true, true, true].getD v false = true) ∧
    ∀ (u : Nat) (es : List Transit.AdjListNode) (st : Transit.DijkState),
      st.dist.getD u 0 = Transit.INFINITY → Transit.relax u es st = st) :=
  ⟨by decide, C6_no_early_stop 3 [true, true, true]
    [0, Transit.INFINITY, Transit.INFINITY] (by decide)⟩

/-! Walk helper lemmas shared by the `print_path` claims. -/

theorem pathWalk_exit (parent : List Int) (s : Int) (f : Nat) (c : Int) (acc : List Int)
    (h : c = -1 ∨ c = s) : pathWalk parent s f c acc = some (s :: acc) := by
  cases f with
  | zero => simp [pathWalk, h]
  | succ f => simp [pathWalk, h]

theorem pathWalk_step (parent : List Int) (s : Int) (f : Nat) (c : Int) (acc : List Int)
    (h : ¬ (c = -1 ∨ c = s)) :
    pathWalk parent s (f + 1) c acc =
      pathWalk parent s f (parent.getD c.toNat (-1)) (c :: acc) := by
  simp [pathWalk, h]

/-- Claim C9: an out-of-range `set_name` leaves the graph — node count, edges,
and all names — untouched (non-fatally), while an in-range `set_name`
overwrites exactly the addressed name and nothing else. -/
theorem C9_set_node_name (g : Transit.Graph) (node : Int) (text : String) :
    ((node < 0 ∨ (g.num_nodes : Int) ≤ node) → Transit.set_node_name g node text = g) ∧
    (0 ≤ node → node < (g.num_nodes : Int) → g.node_names.length = g.num_nodes →
      (Transit.set_node_name g node text).num_nodes = g.num_nodes ∧
      (Transit.set_node_name g node text).adj_lists = g.adj_lists ∧
      (Transit.set_node_name g node text).node_names.getD node.toNat none = some text ∧
      ∀ i, i ≠ node.toNat →
        (Transit.set_node_name g node text).node_names.getD i none =
          g.node_names.getD i none) := by
  constructor
  · intro h
    rw [Transit.set_node_name, if_pos h]
  · intro h0 hn hlen
    rw [Transit.set_node_name, if_neg (by push_neg; omega)]
    refine ⟨rfl, rfl, ?_, ?_⟩
    · exact getD_set_self _ _ _ _ (by rw [hlen]; omega)
    · intro i hi
      exact getD_set_ne _ _ _ _ _ (fun h => hi h.symm)

/-- Witness for C9 on a fresh two-node graph: index 5 is rejected without any
state change, index 1 stores the name. -/
theorem C9_set_node_name_witness :
    (((5 : Int) < 0 ∨ ((Transit.create_graph 2).num_nodes : Int) ≤ 5) ∧
      Transit.set_node_name (Transit.create_graph 2) 5 "X" = Transit.create_graph 2) ∧
    ((0 : Int) ≤ 1 ∧ (1 : Int) < ((Transit.create_graph 2).num_nodes : Int) ∧
      (Transit.set_node_name (Transit.create_graph 2) 1 "X").node_names.getD
        (1 : Int).toNat none = some "X") :=
  ⟨⟨by decide, (C9_set_node_name (Transit.create_graph 2) 5 "X").1 (by decide)⟩,
    ⟨by decide, by decide,
      ((C9_set_node_name (Transit.create_graph 2) 1 "X").2 (by decide) (by decide)
        (by decide)).2.2.1⟩⟩

/-- Claim C3 counterexample: on the predecessor map produced by `bfs` on the
edgeless two-node maze (so `predecessor[1]` holds the sentinel and `1 ≠ 0`),
the maze `print_path` does not report `NoPath`: it prints the malformed
two-node sequence `[0, 1]`, because it only checks `end_node == -1`. -/
theorem C3_cex :
    (Maze.bfs mIso2 0 1).parent = [-1, -1] ∧
    (Maze.bfs mIso2 0 1).parent.getD 1 (-1) = -1 ∧
    (1 : Int) ≠ 0 ∧
    Maze.print_path (Maze.bfs mIso2 0 1).parent 0 1 = PrintResult.path [0, 1] ∧
    Maze.print_path (Maze.bfs mIso2 0 1).parent 0 1 ≠ PrintResult.noPath := by decide

/-- Claim C3 as amended: reconstruction from `source` to `source` prints the
single node `source` (maze) or reports being already at `source` (transit);
the `NoPath` report on a sentinel predecessor holds for the transit
reconstructor only, while the maze reconstructor checks only `target = -1`
and on a sentinel predecessor emits the malformed sequence `[source, target]`;
otherwise both walk the predecessor links backward. -/
theorem C3_reconstruct (parent : List Int) (s e : Int) :
    (0 ≤ s → Maze.print_path parent s s = PrintResult.path [s]) ∧
    (Transit.print_path parent s s = PrintResult.alreadyThere s) ∧
    (e ≠ s → parent.getD e.toNat (-1) = -1 →
      Transit.print_path parent s e = PrintResult.noPath) ∧
    (e ≠ -1 → e ≠ s → 0 ≤ s → parent.getD e.toNat (-1) = -1 →
      Maze.print_path parent s e = PrintResult.path [s, e]) := by
  refine ⟨?_, ?_, ?_, ?_⟩
  · intro hs
    rw [Maze.print_path, if_neg (by omega)]
    rw [pathWalk_exit parent s Maze.MAX_NODES s [] (Or.inr rfl)]
  · rw [Transit.print_path, if_pos rfl]
  · intro hne hp
    rw [Transit.print_path, if_neg hne, if_pos ⟨hp, hne⟩]
  · intro h1 h2 h3 hp
    rw [Maze.print_path, if_neg h1]
    rw [show Maze.MAX_NODES = 99 + 1 from rfl,
      pathWalk_step parent s 99 e [] (by push_neg; exact ⟨h1, h2⟩), hp,
      pathWalk_exit parent s 99 (-1) [e] (Or.inl rfl)]

/-- Witness for the amended C3 on the map `bfs` produces on the edgeless
two-node maze. -/
theorem C3_reconstruct_witness :
    ((0 : Int) ≤ 0 ∧ (1 : Int) ≠ 0 ∧ (1 : Int) ≠ -1 ∧
      ([-1, -1] : List Int).getD (1 : Int).toNat (-1) = -1) ∧
    (Maze.print_path [-1, -1] 0 0 = PrintResult.path [0] ∧
      Transit.print_path [-1, -1] 0 0 = PrintResult.alreadyThere 0 ∧
      Transit.print_path [-1, -1] 0 1 = PrintResult.noPath ∧
      Maze.print_path [-1, -1] 0 1 = PrintResult.path [0, 1]) :=
  ⟨⟨by decide, by decide, by decide, by decide⟩,
    ⟨(C3_reconstruct [-1, -1] 0 1).1 (by decide),
      (C3_reconstruct [-1, -1] 0 1).2.1,
      (C3_reconstruct [-1, -1] 0 1).2.2.1 (by decide) (by decide),
      (C3_reconstruct [-1, -1] 0 1).2.2.2 (by decide) (by decide) (by decide) (by decide)⟩⟩

/-! Path theory for the maze graph. -/

namespace Maze

theorem adjl_mem_m {g : Graph} {a : Nat} (hne : adjl g a ≠ []) : adjl g a ∈ g.adj_lists := by
  unfold adjl at *
  by_cases ha : a < g.adj_lists.length
  · exact getD_mem _ _ _ ha
  · rw [List.getD_eq_default _ _ (by omega)] at hne ⊢
    exact absurd rfl hne

theorem edge_dest_lt_m {g : Graph} (hwf : WF g) {a b : Nat} (h : b ∈ adjl g a) :
    b < g.num_nodes := by
  have hne : adjl g a ≠ [] := by
    intro hnil
    rw [hnil] at h
    cases h
  exact hwf.2 _ (adjl_mem_m hne) _ h

theorem MPath.nodes_lt_m {g : Graph} (hwf : WF g) {a x : Nat} {l : List Nat} {k : Nat}
    (h : MPath g a x l k) (ha : a < g.num_nodes) : ∀ y ∈ l, y < g.num_nodes := by
  induction h with
  | nil a =>
    intro y hy
    rw [List.mem_singleton.mp hy]
    exact ha
  | cons he hp ih =>
    intro y hy
    rcases List.mem_cons.mp hy with h1 | h2
    · exact h1 ▸ ha
    · exact ih (edge_dest_lt_m hwf he) y h2

theorem MPath.end_mem_m {g : Graph} {a x : Nat} {l : List Nat} {k : Nat}
    (h : MPath g a x l k) : x ∈ l := by
  induction h with
  | nil a => exact List.mem_singleton.mpr rfl
  | cons _ _ ih => exact List.mem_cons_of_mem _ ih

theorem MPath.append_edge_m {g : Graph} {s u : Nat} {l : List Nat} {k : Nat}
    (h : MPath g s u l k) : ∀ {b : Nat}, b ∈ adjl g u → MPath g s b (l ++ [b]) (k + 1) := by
  induction h with
  | nil a =>
    intro b hb
    rw [List.singleton_append]
    exact .cons hb (.nil b)
  | @cons a bb xx ll kk he hp ih =>
    intro b hb
    rw [List.cons_append]
    have h0 : kk + 1 + 1 = (kk + 1) + 1 := rfl
    exact .cons he (ih hb)

theorem MPath.zero_inv {g : Graph} {a x : Nat} {l : List Nat} (h : MPath g a x l 0) :
    a = x ∧ l = [a] := by
  cases h with
  | nil => exact ⟨rfl, rfl⟩

theorem MPath.snoc_inv {g : Graph} :
    ∀ {k : Nat} {a x : Nat} {l : List Nat}, MPath g a x l (k + 1) →
      ∃ y l', MPath g a y l' k ∧ x ∈ adjl g y := by
  intro k
  induction k with
  | zero =>
    intro a x l h
    cases h with
    | @cons _ b _ l' k' he hp =>
      obtain ⟨rfl, rfl⟩ := MPath.zero_inv hp
      exact ⟨a, [a], .nil a, he⟩
  | succ k ih =>
    intro a x l h
    cases h with
    | @cons _ b _ l' k' he hp =>
      obtain ⟨y, l'', hy, hxy⟩ := ih hp
      exact ⟨y, a :: l'', .cons he hy, hxy⟩

theorem MPath.mem_suffix_m {g : Graph} {a x v : Nat} {l : List Nat} {k : Nat}
    (h : MPath g a x l k) (hv : v ∈ l) :
    ∃ l2 k2, MPath g v x l2 k2 ∧ l2.Sublist l ∧ k2 ≤ k := by
  induction h with
  | nil a =>
    rw [List.mem_singleton.mp hv]
    exact ⟨[a], 0, .nil a, List.Sublist.refl _, le_refl 0⟩
  | @cons a b x l' k' he hp ih =>
    rcases List.mem_cons.mp hv with h1 | h2
    · subst h1
      exact ⟨v :: l', k' + 1, .cons he hp, List.Sublist.refl _, le_refl _⟩
    · obtain ⟨l2, k2, hp2, hsub, hle⟩ := ih h2
      exact ⟨l2, k2, hp2, hsub.trans (List.sublist_cons_self a l'), by omega⟩

theorem MPath.node_dedup_m {g : Graph} {a x : Nat} {l : List Nat} {k : Nat}
    (h : MPath g a x l k) : ∃ l' k', MPath g a x l' k' ∧ l'.Nodup ∧ k' ≤ k := by
  induction h with
  | nil a => exact ⟨[a], 0, .nil a, List.nodup_singleton a, le_refl 0⟩
  | @cons a b x l' k' he hp ih =>
    obtain ⟨l2, k2, hp2, hnd2, hle2⟩ := ih
    by_cases hal : a ∈ l2
    · obtain ⟨l3, k3, hp3, hsub, hle3⟩ := MPath.mem_suffix_m hp2 hal
      exact ⟨l3, k3, hp3, hnd2.sublist hsub, by omega⟩
    · exact ⟨a :: l2, k2 + 1, .cons he hp2, List.nodup_cons.mpr ⟨hal, hnd2⟩, by omega⟩

theorem MPath.list_length {g : Graph} {a x : Nat} {l : List Nat} {k : Nat}
    (h : MPath g a x l k) : l.length = k + 1 := by
  induction h with
  | nil a => rfl
  | cons _ _ ih => simp [ih]

theorem hopMin_self (g : Graph) (s : Nat) : hopMin g s s 0 :=
  ⟨⟨[s], .nil s⟩, fun _ _ _ => Nat.zero_le _⟩

theorem hopMin_unique {g : Graph} {s v : Nat} {d d' : Nat} (h : hopMin g s v d)
    (h' : hopMin g s v d') : d = d' := by
  obtain ⟨⟨l, hl⟩, hmin⟩ := h
  obtain ⟨⟨l', hl'⟩, hmin'⟩ := h'
  have h1 := hmin l' d' hl'
  have h2 := hmin' l d hl
  omega

theorem hopMin_exists {g : Graph} {s v : Nat} (h : ReachM g s v) :
    ∃ d, hopMin g s v d := by
  by_contra hno
  push_neg at hno
  have hdesc : ∀ k, (∃ l, MPath g s v l k) → ∃ k', k' < k ∧ ∃ l', MPath g s v l' k' := by
    intro k hk
    have hnk := hno k
    unfold hopMin at hnk
    rw [not_and_or] at hnk
    rcases hnk with h1 | h2
    · exact absurd hk h1
    · push_neg at h2
      obtain ⟨l', k', hp', hlt⟩ := h2
      exact ⟨k', hlt, l', hp'⟩
  have hnone : ∀ k, ¬ ∃ l, MPath g s v l k := by
    intro k
    induction k using Nat.strong_induction_on with
    | _ k ih =>
      intro hk
      obtain ⟨k', hlt, hk'⟩ := hdesc k hk
      exact ih k' hlt hk'
  obtain ⟨l, k, hp⟩ := h
  exact hnone k ⟨l, hp⟩

theorem hopMin_lt {g : Graph} (hwf : WF g) {s v : Nat} (hs : s < g.num_nodes) {d : Nat}
    (h : hopMin g s v d) : d < g.num_nodes := by
  obtain ⟨⟨l, hl⟩, hmin⟩ := h
  obtain ⟨l', k', hp', hnd, _⟩ := MPath.node_dedup_m hl
  have hlen : l'.length ≤ g.num_nodes :=
    nodup_length_le l' g.num_nodes hnd (MPath.nodes_lt_m hwf hp' hs)
  have := MPath.list_length hp'
  have := hmin l' k' hp'
  omega

/-- A predicate closed under adjacency and holding at the path head holds at
the path end. -/
theorem reach_closed {g : Graph} (hwf : WF g) (P : Nat → Prop)
    (hcl : ∀ v, v < g.num_nodes → P v → ∀ w ∈ adjl g v, P w) :
    ∀ {a x : Nat} {l : List Nat} {k : Nat}, MPath g a x l k → a < g.num_nodes → P a → P x := by
  intro a x l k h
  induction h with
  | nil a => exact fun _ hp => hp
  | @cons a b x l' k' he hp ih =>
    intro ha hpa
    exact ih (edge_dest_lt_m hwf he) (hcl a ha hpa b he)

end Maze

namespace Maze

theorem bfsVisit_vis_mono (u : Nat) : ∀ (ws : List Nat) (st : BfsState) (v : Nat),
    st.visited.getD v false = true → (bfsVisit u ws st).visited.getD v false = true := by
  intro ws
  induction ws with
  | nil => intro st v hv; exact hv
  | cons w rest ih =>
    intro st v hv
    rw [bfsVisit]
    split
    · exact ih st v hv
    · rename_i hvw
      refine ih _ v ?_
      show (st.visited.set w true).getD v false = true
      rw [getD_set]
      split
      · rfl
      · exact hv

/-- The neighbour scan preserves the mid-iteration invariant, visits every
scanned neighbour, and preserves the termination measure. -/
theorem bfsVisit_post {g : Graph} {s e u d : Nat} (hwf : WF g) (hs : s < g.num_nodes) :
    ∀ (ws : List Nat) (st : BfsState) (q1 q2 : List Nat),
      (∀ w ∈ ws, w ∈ adjl g u) → BMid g s e u d st q1 q2 →
      ∃ ext, BMid g s e u d (bfsVisit u ws st) q1 (q2 ++ ext) ∧
        (∀ w ∈ ws, (bfsVisit u ws st).visited.getD w false = true) ∧
        (bfsVisit u ws st).visited.count false + (bfsVisit u ws st).queue.length =
          st.visited.count false + st.queue.length := by
  intro ws
  induction ws with
  | nil =>
    intro st q1 q2 _ hmid
    exact ⟨[], by simpa using hmid, fun w hw => absurd hw (List.not_mem_nil w), rfl⟩
  | cons w rest ih =>
    intro st q1 q2 hws hmid
    have hwadj : w ∈ adjl g u := hws w (List.mem_cons_self w rest)
    have hwlt : w < g.num_nodes := edge_dest_lt_m hwf hwadj
    rw [bfsVisit]
    split
    · rename_i hvw
      obtain ⟨ext, hmid', hall, hmeas⟩ :=
        ih st q1 q2 (fun x hx => hws x (List.mem_cons_of_mem w hx)) hmid
      refine ⟨ext, hmid', ?_, hmeas⟩
      intro x hx
      rcases List.mem_cons.mp hx with rfl | hx'
      · exact bfsVisit_vis_mono u rest st x hvw
      · exact hall x hx'
    · rename_i hvw
      have hvwf : st.visited.getD w false = false := by
        cases hq : st.visited.getD w false with
        | false => rfl
        | true => exact absurd hq hvw
      set st' : BfsState :=
        { st with visited := st.visited.set w true, parent := st.parent.set w (u : Int)
                  queue := st.queue ++ [w] } with hst'
      have hv' : ∀ v, st'.visited.getD v false =
          if v = w then true else st.visited.getD v false := by
        intro v
        show (st.visited.set w true).getD v false = _
        rw [getD_set]
        by_cases hvw2 : v = w
        · rw [if_pos ⟨hvw2, by rw [hmid.vlen]; exact hwlt⟩, if_pos hvw2]
        · rw [if_neg (fun hc => hvw2 hc.1), if_neg hvw2]
      have hp' : ∀ v, st'.parent.getD v (-1) =
          if v = w then (u : Int) else st.parent.getD v (-1) := by
        intro v
        show (st.parent.set w (u : Int)).getD v (-1) = _
        rw [getD_set]
        by_cases hvw2 : v = w
        · rw [if_pos ⟨hvw2, by rw [hmid.plen]; exact hwlt⟩, if_pos hvw2]
        · rw [if_neg (fun hc => hvw2 hc.1), if_neg hvw2]
      have hwq : w ∉ st.queue := by
        intro hmm
        rw [(hmid.qmem w hmm).2] at hvwf
        cases hvwf
      have hwu : w ≠ u := by
        intro hh
        rw [hh, hmid.u_vis] at hvwf
        cases hvwf
      have hws2 : w ≠ s := by
        intro hh
        rw [hh, hmid.vis_s] at hvwf
        cases hvwf
      have hwmin : hopMin g s w (d + 1) := by
        constructor
        · obtain ⟨lu, hlu⟩ := hmid.u_min.1
          exact ⟨lu ++ [w], hlu.append_edge_m hwadj⟩
        · intro l k hp
          by_contra hlt
          push_neg at hlt
          have := hmid.levclosed w hwlt ⟨l, k, hp, by omega⟩
          rw [this] at hvwf
          cases hvwf
      have hmid' : BMid g s e u d st' q1 (q2 ++ [w]) := by
        refine ⟨by simp [hst', hmid.vlen], by simp [hst', hmid.plen], ?_, ?_, ?_, ?_, ?_, ?_,
          ?_, ?_, ?_, hmid.u_lt, ?_, ?_, hmid.u_min, ?_, hmid.lev1, ?_, ?_, ?_⟩
        · show st.queue ++ [w] = q1 ++ (q2 ++ [w])
          rw [hmid.queue_eq, List.append_assoc]
        · intro x hx
          show x < g.num_nodes ∧ st'.visited.getD x false = true
          rw [hv']
          rcases List.mem_append.mp hx with hx1 | hx2
          · obtain ⟨h1, h2⟩ := hmid.qmem x hx1
            refine ⟨h1, ?_⟩
            split
            · rfl
            · exact h2
          · rw [List.mem_singleton.mp hx2]
            exact ⟨hwlt, by rw [if_pos rfl]⟩
        · show (st.queue ++ [w]).Nodup
          rw [List.nodup_append]
          exact ⟨hmid.qnodup, List.nodup_singleton w, by
            intro a ha hb
            rw [List.mem_singleton] at hb
            exact hwq (hb ▸ ha)⟩
        · show st'.visited.getD s false = true
          rw [hv', if_neg (fun h => hws2 h.symm)]
          exact hmid.vis_s
        · show st'.parent.getD s (-1) = -1
          rw [hp', if_neg (fun h => hws2 h.symm)]
          exact hmid.parent_s
        · intro v hv hvs hvis
          rw [hv'] at hvis
          rw [hp']
          by_cases hvw2 : v = w
          · subst hvw2
            rw [if_pos rfl]
            exact ⟨u, d, rfl, hmid.u_lt, by rw [hv']; split; rfl; exact hmid.u_vis,
              hwadj, hmid.u_min, hwmin⟩
          · rw [if_neg hvw2] at hvis
            rw [if_neg hvw2]
            obtain ⟨u', du, h1, h2, h3, h4, h5, h6⟩ := hmid.parentOK v hv hvs hvis
            refine ⟨u', du, h1, h2, ?_, h4, h5, h6⟩
            rw [hv']
            split
            · rfl
            · exact h3
        · intro v hv hvis
          rw [hv'] at hvis
          rw [hp']
          by_cases hvw2 : v = w
          · rw [if_pos hvw2] at hvis
            cases hvis
          · rw [if_neg hvw2] at hvis
            rw [if_neg hvw2]
            exact hmid.unvis_parent v hv hvis
        · exact hmid.found_neg
        · intro hvis
          rw [hv'] at hvis
          show e ∈ st.queue ++ [w]
          by_cases hew : e = w
          · exact List.mem_append_right _ (List.mem_singleton.mpr hew)
          · rw [if_neg hew] at hvis
            exact List.mem_append_left _ (hmid.pend hvis)
        · show st'.visited.getD u false = true
          rw [hv', if_neg (fun h => hwu h.symm)]
          exact hmid.u_vis
        · show u ∉ st.queue ++ [w]
          intro hmm
          rcases List.mem_append.mp hmm with h1 | h2
          · exact hmid.u_out h1
          · exact hwu (List.mem_singleton.mp h2).symm
        · intro v hv hvis hvq hvu
          rw [hv'] at hvis
          have hvw2 : v ≠ w := by
            intro hh
            exact hvq (hh ▸ List.mem_append_right _ (List.mem_singleton.mpr rfl))
          rw [if_neg hvw2] at hvis
          intro x hx
          rw [hv']
          split
          · rfl
          · exact hmid.closure v hv hvis
              (fun hmm => hvq (List.mem_append_left _ hmm)) hvu x hx
        · intro x hx
          rcases List.mem_append.mp hx with h1 | h2
          · exact hmid.lev2 x h1
          · rw [List.mem_singleton.mp h2]
            exact hwmin
        · intro v hv hpath
          rw [hv']
          split
          · rfl
          · exact hmid.levclosed v hv hpath
        · obtain ⟨ord, hnd, hmem, hpar⟩ := hmid.order
          have hword : w ∉ ord := by
            intro hmm
            rw [((hmem w).mp hmm).2] at hvwf
            cases hvwf
          refine ⟨ord ++ [w], ?_, ?_, ?_⟩
          · rw [List.nodup_append]
            exact ⟨hnd, List.nodup_singleton w, by
              intro a ha hb
              rw [List.mem_singleton] at hb
              exact hword (hb ▸ ha)⟩
          · intro v
            rw [List.mem_append, List.mem_singleton, hv']
            constructor
            · rintro (hvo | rfl)
              · have := (hmem v).mp hvo
                refine ⟨this.1, ?_⟩
                split
                · rfl
                · exact this.2
              · exact ⟨hwlt, by rw [if_pos rfl]⟩
            · rintro ⟨hvn, hvv⟩
              by_cases hq : v = w
              · exact Or.inr hq
              · rw [if_neg hq] at hvv
                exact Or.inl ((hmem v).mpr ⟨hvn, hvv⟩)
          · intro v hv hne
            rw [hp'] at hne ⊢
            by_cases hq : v = w
            · rw [if_pos hq] at hne ⊢
              refine ⟨u, rfl, List.mem_append_left _ ((hmem u).mpr ⟨hmid.u_lt, hmid.u_vis⟩), ?_⟩
              intro hvm
              subst hq
              rw [pos_append_of_mem _ ((hmem u).mpr ⟨hmid.u_lt, hmid.u_vis⟩),
                pos_append_self _ hword]
              exact pos_lt_of_mem ((hmem u).mpr ⟨hmid.u_lt, hmid.u_vis⟩)
            · rw [if_neg hq] at hne ⊢
              obtain ⟨u', h1, h2, h3⟩ := hpar v hv hne
              refine ⟨u', h1, List.mem_append_left _ h2, ?_⟩
              intro hvm
              rw [List.mem_append, List.mem_singleton] at hvm
              rcases hvm with hvo | hh
              · rw [pos_append_of_mem _ h2, pos_append_of_mem _ hvo]
                exact h3 hvo
              · exact absurd hh hq
      obtain ⟨ext, hmid'', hall, hmeas⟩ :=
        ih st' q1 (q2 ++ [w]) (fun x hx => hws x (List.mem_cons_of_mem w hx)) hmid'
      refine ⟨[w] ++ ext, ?_, ?_, ?_⟩
      · rw [← List.append_assoc]
        exact hmid''
      · intro x hx
        rcases List.mem_cons.mp hx with rfl | hx'
        · refine bfsVisit_vis_mono u rest st' x ?_
          rw [hv', if_pos rfl]
        · exact hall x hx'
      · rw [hmeas]
        show st'.visited.count false + st'.queue.length = _
        have hc : (st.visited.set w true).count false + 1 = st.visited.count false :=
          count_false_set st.visited w (by rw [hmid.vlen]; exact hwlt) hvwf
        have hq : st'.queue.length = st.queue.length + 1 := by
          show (st.queue ++ [w]).length = _
          simp
        show (st.visited.set w true).count false + st'.queue.length = _
        omega

end Maze

namespace Maze

/-- One full BFS iteration (dequeue a non-target node, scan its neighbours)
preserves the invariant and decreases the termination measure by one. -/
theorem bfs_iteration {g : Graph} {s e u : Nat} (hwf : WF g) (hs : s < g.num_nodes)
    {st : BfsState} (rest : List Nat) (binv : BInv g s e st) (hq : st.queue = u :: rest)
    (hue : u ≠ e) :
    BInv g s e (bfsVisit u (adjl g u) { st with queue := rest }) ∧
    (bfsVisit u (adjl g u) { st with queue := rest }).visited.count false +
        (bfsVisit u (adjl g u) { st with queue := rest }).queue.length + 1 =
      st.visited.count false + st.queue.length := by
  obtain ⟨d, q1, q2, hqeq, hlev1, hlev2, hlevcl⟩ := binv.levels
  have hum : u ∈ st.queue := by rw [hq]; exact List.mem_cons_self u rest
  obtain ⟨hul, huv⟩ := binv.qmem u hum
  -- normalise the level split so that `u` heads the level-`d*` part
  obtain ⟨ds, q1s, q2s, hrest, hlev1s, hlev2s, hlevcls, humin⟩ :
      ∃ ds q1s q2s, rest = q1s ++ q2s ∧ (∀ x ∈ q1s, hopMin g s x ds) ∧
        (∀ x ∈ q2s, hopMin g s x (ds + 1)) ∧
        (∀ v, v < g.num_nodes → (∃ l k, MPath g s v l k ∧ k ≤ ds) →
          st.visited.getD v false = true) ∧ hopMin g s u ds := by
    cases q1 with
    | nil =>
      -- the level-`d` part is exhausted: shift to level `d + 1`
      rw [List.nil_append] at hqeq
      have hshift : ∀ v, v < g.num_nodes → (∃ l k, MPath g s v l k ∧ k ≤ d + 1) →
          st.visited.getD v false = true := by
        intro v hv ⟨l, k, hp, hk⟩
        by_cases hkd : k ≤ d
        · exact hlevcl v hv ⟨l, k, hp, hkd⟩
        · have hkd1 : k = d + 1 := by omega
          subst hkd1
          obtain ⟨y, l', hy, hadj⟩ := MPath.snoc_inv hp
          have hyn : y < g.num_nodes :=
            MPath.nodes_lt_m hwf hy hs y (MPath.end_mem_m hy)
          have hyvis : st.visited.getD y false = true := hlevcl y hyn ⟨l', d, hy, le_refl d⟩
          have hynq : y ∉ st.queue := by
            intro hmm
            rw [hqeq] at hmm
            have := (hlev2 y hmm).2 l' d hy
            omega
          exact binv.processed_closed y hyn hyvis hynq v hadj
      have hq2 : q2 = u :: rest := by rw [← hqeq, hq]
      cases hq2
      exact ⟨d + 1, rest, [], by simp, fun x hx => hlev2 x (List.mem_cons_of_mem u hx),
        fun x hx => absurd hx (List.not_mem_nil x), hshift,
        hlev2 u (List.mem_cons_self u rest)⟩
    | cons u' q1t =>
      rw [hq, List.cons_append] at hqeq
      injection hqeq with h1 h2
      subst h1
      exact ⟨d, q1t, q2, h2, fun x hx => hlev1 x (List.mem_cons_of_mem _ hx), hlev2,
        hlevcl, hlev1 u (List.mem_cons_self u q1t)⟩
  set st_mid : BfsState := { st with queue := rest } with hst_mid
  have hmid : BMid g s e u ds st_mid q1s q2s := by
    refine ⟨binv.vlen, binv.plen, hrest, ?_, ?_, binv.vis_s, binv.parent_s, binv.parentOK,
      binv.unvis_parent, binv.found_neg, ?_, hul, huv, ?_, humin, ?_, hlev1s, hlev2s,
      hlevcls, binv.order⟩
    · intro x hx
      exact binv.qmem x (by rw [hq]; exact List.mem_cons_of_mem u hx)
    · have := binv.qnodup
      rw [hq] at this
      exact (List.nodup_cons.mp this).2
    · intro hvis
      have := binv.target_pending hvis
      rw [hq] at this
      rcases List.mem_cons.mp this with h1 | h2
      · exact absurd h1.symm hue
      · exact h2
    · have := binv.qnodup
      rw [hq] at this
      exact (List.nodup_cons.mp this).1
    · intro v hv hvis hvq hvu
      refine binv.processed_closed v hv hvis ?_
      rw [hq]
      intro hmm
      rcases List.mem_cons.mp hmm with h1 | h2
      · exact hvu h1
      · exact hvq h2
  obtain ⟨ext, hmid', hall, hmeas⟩ := bfsVisit_post hwf hs (adjl g u) st_mid q1s q2s
    (fun x hx => hx) hmid
  constructor
  · refine ⟨hmid'.vlen, hmid'.plen, hmid'.qmem, hmid'.qnodup, hmid'.vis_s, hmid'.parent_s,
      hmid'.parentOK, hmid'.unvis_parent, hmid'.found_neg, hmid'.pend, ?_,
      ⟨ds, q1s, q2s ++ ext, hmid'.queue_eq, hmid'.lev1, hmid'.lev2, hmid'.levclosed⟩,
      hmid'.order⟩
    intro v hv hvis hvq
    by_cases hvu : v = u
    · subst hvu
      exact fun w hw => hall w hw
    · exact hmid'.closure v hv hvis hvq hvu
  · rw [hmeas]
    show st.visited.count false + rest.length + 1 = st.visited.count false + st.queue.length
    rw [hq]
    simp only [List.length_cons]
    omega

/-- Running the BFS loop to completion from an invariant state yields the
claimed postcondition, provided the fuel covers the termination measure. -/
theorem bfsLoop_post {g : Graph} {s e : Nat} (hwf : WF g) (hs : s < g.num_nodes) :
    ∀ (fuel : Nat) (st : BfsState), BInv g s e st →
      st.visited.count false + st.queue.length ≤ fuel →
      BPost g s e (bfsLoop g e fuel st) := by
  have hend : ∀ st, BInv g s e st → st.queue = [] → BPost g s e st := by
    intro st binv hqe
    refine ⟨binv.vlen, binv.plen, binv.parent_s, binv.parentOK, binv.unvis_parent,
      binv.vis_s, ?_, binv.order⟩
    refine Or.inl ⟨binv.found_neg, ?_, ?_⟩
    · cases hvis : st.visited.getD e false with
      | false => rfl
      | true =>
        have := binv.target_pending hvis
        rw [hqe] at this
        cases this
    · intro v hv hvis w hw
      refine binv.processed_closed v hv hvis ?_ w hw
      rw [hqe]
      exact List.not_mem_nil v
  intro fuel
  induction fuel with
  | zero =>
    intro st binv hmeas
    have hqe : st.queue = [] := by
      have : st.queue.length = 0 := by omega
      exact List.length_eq_zero.mp this
    simp only [bfsLoop]
    exact hend st binv hqe
  | succ f ih =>
    intro st binv hmeas
    cases hq : st.queue with
    | nil =>
      rw [bfsLoop, hq]
      exact hend st binv hq
    | cons u rest =>
      simp only [bfsLoop, hq]
      by_cases hue : u = e
      · rw [if_pos hue]
        refine ⟨binv.vlen, binv.plen, binv.parent_s, binv.parentOK, binv.unvis_parent,
          binv.vis_s, ?_, binv.order⟩
        refine Or.inr ⟨by rw [hue], ?_⟩
        have := (binv.qmem u (by rw [hq]; exact List.mem_cons_self u rest)).2
        rw [hue] at this
        exact this
      · rw [if_neg hue]
        obtain ⟨binv', hmeas'⟩ := bfs_iteration hwf hs rest binv hq hue
        refine ih _ binv' ?_
        have hk : st.queue.length = rest.length + 1 := by rw [hq]; simp
        omega

end Maze

namespace Maze

/-- The BFS invariant holds at the seeded initial state. -/
theorem bfs_init_inv {g : Graph} {s e : Nat} (hwf : WF g) (hs : s < g.num_nodes) :
    BInv g s e
      { visited := (List.replicate g.num_nodes false).set s true
        parent := List.replicate g.num_nodes (-1), queue := [s], found := -1 } := by
  have hvx : ∀ v, ((List.replicate g.num_nodes false).set s true).getD v false =
      if v = s then true else false := by
    intro v
    rw [getD_set]
    by_cases hv : v = s
    · rw [if_pos ⟨hv, by simpa using hs⟩, if_pos hv]
    · rw [if_neg (fun hc => hv hc.1), if_neg hv]
      by_cases hvn : v < g.num_nodes
      · exact getD_replicate v false false hvn
      · exact List.getD_eq_default _ _ (by simp; omega)
  have hpx : ∀ v, (List.replicate g.num_nodes (-1 : Int)).getD v (-1) = -1 := by
    intro v
    by_cases hvn : v < g.num_nodes
    · exact getD_replicate v (-1) (-1) hvn
    · exact List.getD_eq_default _ _ (by simp; omega)
  have honly : ∀ v, ((List.replicate g.num_nodes false).set s true).getD v false = true →
      v = s := by
    intro v hv
    rw [hvx v] at hv
    by_cases hvs : v = s
    · exact hvs
    · rw [if_neg hvs] at hv
      cases hv
  refine ⟨by simp, by simp, ?_, List.nodup_singleton s, ?_, hpx s, ?_, ?_, rfl, ?_, ?_,
    ?_, ?_⟩
  · intro x hx
    rw [List.mem_singleton.mp hx]
    exact ⟨hs, by rw [hvx, if_pos rfl]⟩
  · rw [hvx, if_pos rfl]
  · intro v hv hvs hvis
    exact absurd (honly v hvis) hvs
  · intro v _ _
    exact hpx v
  · intro hvis
    rw [honly e hvis]
    exact List.mem_singleton.mpr rfl
  · intro v _ hvis hvq
    exact absurd (List.mem_singleton.mpr (honly v hvis)) hvq
  · refine ⟨0, [s], [], rfl, ?_, ?_, ?_⟩
    · intro x hx
      rw [List.mem_singleton.mp hx]
      exact hopMin_self g s
    · intro x hx
      cases hx
    · intro v hv ⟨l, k, hp, hk⟩
      have hk0 : k = 0 := by omega
      subst hk0
      obtain ⟨rfl, _⟩ := MPath.zero_inv hp
      rw [hvx, if_pos rfl]
  · refine ⟨[s], List.nodup_singleton s, ?_, ?_⟩
    · intro v
      rw [List.mem_singleton]
      constructor
      · rintro rfl
        exact ⟨hs, by rw [hvx, if_pos rfl]⟩
      · rintro ⟨_, hvis⟩
        exact honly v hvis
    · intro v _ hne
      exact absurd (hpx v) hne

/-- The BFS postcondition holds for every `bfs` run from a valid source. -/
theorem bfs_post {g : Graph} {s e : Nat} (hwf : WF g) (hs : s < g.num_nodes) :
    BPost g s e (bfs g s e) := by
  refine bfsLoop_post hwf hs g.num_nodes _ (bfs_init_inv hwf hs) ?_
  have hcnt : ((List.replicate g.num_nodes false).set s true).count false + 1 =
      (List.replicate g.num_nodes false).count false :=
    count_false_set _ s (by simpa using hs) (getD_replicate s false false hs)
  have hrep : (List.replicate g.num_nodes false).count false = g.num_nodes := by simp
  show ((List.replicate g.num_nodes false).set s true).count false + [s].length ≤ g.num_nodes
  simp only [List.length_singleton]
  omega

/-- Every visited node has a well-defined hop level. -/
theorem bpost_vis_hop {g : Graph} {s e : Nat} {st : BfsState} (hp : BPost g s e st) :
    ∀ v, v < g.num_nodes → st.visited.getD v false = true → ∃ dv, hopMin g s v dv := by
  intro v hv hvis
  by_cases hvs : v = s
  · exact ⟨0, hvs ▸ hopMin_self g s⟩
  · obtain ⟨u, du, _, _, _, _, _, h6⟩ := hp.parentOK v hv hvs hvis
    exact ⟨du + 1, h6⟩

/-- Walking the BFS predecessor map backward from a visited node at hop level
`dv` produces exactly the `dv + 1` nodes of a minimum-hop path. -/
theorem bpost_walk {g : Graph} {s e : Nat} {st : BfsState} (hp : BPost g s e st)
    (hwf : WF g) (hs : s < g.num_nodes) :
    ∀ (dv v : Nat), v < g.num_nodes → st.visited.getD v false = true → hopMin g s v dv →
      ∀ (f : Nat) (acc : List Int), dv < f →
        ∃ lr : List Int, pathWalk st.parent (s : Int) f (v : Int) acc = some (lr ++ acc) ∧
          lr.length = dv + 1 := by
  intro dv
  induction dv using Nat.strong_induction_on with
  | _ dv ih =>
    intro v hv hvis hmin f acc hf
    by_cases hvs : v = s
    · subst hvs
      have hd0 : dv = 0 := hopMin_unique hmin (hopMin_self g v)
      refine ⟨[(v : Int)], pathWalk_exit _ _ _ _ _ (Or.inr rfl), by rw [hd0]; rfl⟩
    · obtain ⟨u, du, hpeq, hun, huvis, hadj, humin, hvmin⟩ := hp.parentOK v hv hvs hvis
      have hdv : dv = du + 1 := hopMin_unique hmin hvmin
      cases f with
      | zero => omega
      | succ f' =>
        have hcond : ¬ ((v : Int) = -1 ∨ (v : Int) = (s : Int)) := by
          push_neg
          constructor
          · omega
          · intro hh
            exact hvs (by exact_mod_cast hh)
        rw [pathWalk_step _ _ _ _ _ hcond]
        have htn : ((v : Int)).toNat = v := by simp
        rw [htn, hpeq]
        obtain ⟨lr', heq, hlen⟩ := ih du (by omega) u hun huvis humin f'
          ((v : Int) :: acc) (by omega)
        refine ⟨lr' ++ [(v : Int)], ?_, ?_⟩
        · rw [heq, List.append_assoc, List.singleton_append]
        · simp [hlen, hdv]

end Maze

/-- Claim C2: on every well-formed maze graph (within the `MAX_NODES` bound of
the source file) with the target reachable from the source, `bfs` stops at the
first dequeue of the target (recording it in `path_found_end_node`), and the
path reconstructed from its predecessor map has edge count equal to the
minimum number of edges over all paths from source to target. -/
theorem C2_bfs_shortest_path (g : Maze.Graph) (s e : Nat) (hwf : Maze.WF g)
    (hs : s < g.num_nodes) (he : e < g.num_nodes) (hmax : g.num_nodes ≤ Maze.MAX_NODES)
    (hreach : Maze.ReachM g s e) :
    (Maze.bfs g s e).found = ((e : Nat) : Int) ∧
    ∃ p : List Int, Maze.print_path (Maze.bfs g s e).parent (s : Int) (e : Int) =
        PrintResult.path p ∧ Maze.hopMin g s e (p.length - 1) := by
  have hpost := @Maze.bfs_post g s e hwf hs
  rcases hpost.result with ⟨_, hnvis, hclosed⟩ | ⟨hf, hvis⟩
  · exfalso
    obtain ⟨l, k, hpath⟩ := hreach
    have hvise := Maze.reach_closed hwf
      (fun v => (Maze.bfs g s e).visited.getD v false = true) hclosed hpath hs hpost.vis_s
    rw [hvise] at hnvis
    cases hnvis
  · refine ⟨hf, ?_⟩
    obtain ⟨de, hde⟩ := Maze.hopMin_exists hreach
    have hdlt : de < g.num_nodes := Maze.hopMin_lt hwf hs hde
    obtain ⟨lr, heq, hlen⟩ := Maze.bpost_walk hpost hwf hs de e he hvis hde
      Maze.MAX_NODES [] (by omega)
    refine ⟨lr, ?_, ?_⟩
    · rw [Maze.print_path, if_neg (by omega)]
      rw [List.append_nil] at heq
      rw [heq]
    · rw [hlen]
      simpa using hde

/-- Witness for C2 on the three-node line maze `0 - 1 - 2`. -/
theorem C2_bfs_shortest_path_witness :
    (Maze.WF mLine ∧ 0 < mLine.num_nodes ∧ 2 < mLine.num_nodes ∧
      mLine.num_nodes ≤ Maze.MAX_NODES ∧ Maze.ReachM mLine 0 2) ∧
    ((Maze.bfs mLine 0 2).found = ((2 : Nat) : Int) ∧
      ∃ p : List Int, Maze.print_path (Maze.bfs mLine 0 2).parent ((0 : Nat) : Int)
          ((2 : Nat) : Int) = PrintResult.path p ∧ Maze.hopMin mLine 0 2 (p.length - 1)) :=
  ⟨⟨by decide, by decide, by decide, by decide,
      ⟨[0, 1, 2], 2, .cons (by decide) (.cons (by decide) (.nil 2))⟩⟩,
    C2_bfs_shortest_path mLine 0 2 (by decide) (by decide) (by decide) (by decide)
      ⟨[0, 1, 2], 2, .cons (by decide) (.cons (by decide) (.nil 2))⟩⟩

theorem count_false_mono (l1 : List Bool) : ∀ (l2 : List Bool), l1.length = l2.length →
    (∀ v, l1.getD v false = true → l2.getD v false = true) →
    l2.count false ≤ l1.count false := by
  induction l1 with
  | nil =>
    intro l2 hlen _
    rw [List.length_nil] at hlen
    rw [List.length_eq_zero.mp hlen.symm]
  | cons b1 t1 ih =>
    intro l2 hlen hmono
    cases l2 with
    | nil => simp at hlen
    | cons b2 t2 =>
      have htail := ih t2 (by simpa using hlen) (fun v => by
        have := hmono (v + 1)
        simpa using this)
      have hhead := hmono 0
      simp only [List.getD_cons_zero] at hhead
      cases b1 with
      | true =>
        rw [hhead rfl]
        simp only [List.count_cons]
        omega
      | false =>
        simp only [List.count_cons]
        cases b2 <;> simp <;> omega

namespace Maze

theorem DfsOut.refl {g : Graph} {e : Nat} (st : DfsState) (b : Bool) :
    DfsOut g e st b st :=
  ⟨rfl, rfl, fun _ h => h, fun _ _ => rfl, fun _ h => h,
    fun _ v h1 h2 => (by rw [h1] at h2; cases h2),
    fun ord h => ⟨[], by simpa using h⟩⟩

theorem DfsOut.trans {g : Graph} {e : Nat} {st1 st2 st3 : DfsState} {b : Bool}
    (h1 : DfsOut g e st1 false st2) (h2 : DfsOut g e st2 b st3) :
    DfsOut g e st1 b st3 := by
  refine ⟨h2.vlen.trans h1.vlen, h2.plen.trans h1.plen, ?_, ?_, ?_, ?_, ?_⟩
  · intro v hv
    exact h2.vmono v (h1.vmono v hv)
  · intro v hv
    rw [h2.pfix v (h1.vmono v hv)]
    exact h1.pfix v hv
  · intro hb hv
    exact h1.enew rfl (h2.enew hb hv)
  · intro hb v hv3 hv1 w hw
    by_cases hv2 : st2.visited.getD v false = true
    · exact h2.vmono w (h1.closure rfl v hv2 hv1 w hw)
    · have hv2f : st2.visited.getD v false = false := by
        cases hq : st2.visited.getD v false with
        | false => rfl
        | true => exact absurd hq hv2
      exact h2.closure hb v hv3 hv2f w hw
  · intro ord hord
    obtain ⟨ext1, hord1⟩ := h1.order ord hord
    obtain ⟨ext2, hord2⟩ := h2.order (ord ++ ext1) hord1
    exact ⟨ext1 ++ ext2, by rwa [← List.append_assoc]⟩

/-- Recording a predecessor for an unvisited node before descending is
invisible to every `DfsOut` clause. -/
theorem dfsout_set_parent {g : Graph} {e cur v : Nat} (st : DfsState)
    (hv : st.visited.getD v false = false) (hcur : cur < g.num_nodes)
    (hcvis : st.visited.getD cur false = true) :
    DfsOut g e st false { st with parent := st.parent.set v ((cur : Nat) : Int) } := by
  have hp' : ∀ y, ({ st with parent := st.parent.set v ((cur : Nat) : Int) } :
      DfsState).parent.getD y (-1) =
      if y = v ∧ v < st.parent.length then ((cur : Nat) : Int) else st.parent.getD y (-1) :=
    fun y => getD_set _ _ _ _ _
  refine ⟨rfl, (by simp : _), fun _ h => h, ?_, fun _ h => h,
    fun _ v' h1 h2 => (by rw [h1] at h2; cases h2), ?_⟩
  · intro y hy
    rw [hp' y]
    split
    · rename_i hc
      rw [hc.1] at hy
      rw [hy] at hv
      cases hv
    · rfl
  · intro ord hord
    obtain ⟨hnd, hmem, hpar⟩ := hord
    refine ⟨[], ?_⟩
    rw [List.append_nil]
    refine ⟨hnd, hmem, ?_⟩
    intro y hyn hne
    rw [hp' y] at hne ⊢
    by_cases hc : y = v ∧ v < st.parent.length
    · rw [if_pos hc] at hne ⊢
      refine ⟨cur, rfl, (hmem cur).mpr ⟨hcur, hcvis⟩, ?_⟩
      intro hyo
      rw [hc.1] at hyo
      rw [((hmem v).mp hyo).2] at hv
      cases hv
    · rw [if_neg hc] at hne ⊢
      exact hpar y hyn hne

/-- Marking the current node visited, described pointwise. -/
theorem dfs_mark_getD {st : DfsState} {cur : Nat} (hlen : cur < st.visited.length) :
    ∀ y, (st.visited.set cur true).getD y false =
      if y = cur then true else st.visited.getD y false := by
  intro y
  rw [getD_set]
  by_cases hy : y = cur
  · rw [if_pos ⟨hy, hlen⟩, if_pos hy]
  · rw [if_neg (fun hc => hy hc.1), if_neg hy]

end Maze

/-- Marking an unvisited node extends an order-consistent pair by that node. -/
theorem ordCons_mark {n : Nat} {visited : List Bool} {parent : List Int} {ord : List Nat}
    (h : OrdCons n visited parent ord) (v : Nat) (hvn : v < n)
    (hlen : v < visited.length) (hvf : visited.getD v false = false) :
    OrdCons n (visited.set v true) parent (ord ++ [v]) := by
  obtain ⟨hnd, hmem, hpar⟩ := h
  have hvo : v ∉ ord := fun hm => by rw [(hmem v |>.mp hm).2] at hvf; cases hvf
  have hv' : ∀ y, (visited.set v true).getD y false =
      if y = v then true else visited.getD y false := by
    intro y
    rw [getD_set]
    by_cases hy : y = v
    · rw [if_pos ⟨hy, hlen⟩, if_pos hy]
    · rw [if_neg (fun hc => hy hc.1), if_neg hy]
  refine ⟨?_, ?_, ?_⟩
  · rw [List.nodup_append]
    exact ⟨hnd, List.nodup_singleton v, by
      intro a ha hb
      rw [List.mem_singleton] at hb
      exact hvo (hb ▸ ha)⟩
  · intro y
    rw [List.mem_append, List.mem_singleton, hv' y]
    constructor
    · rintro (hyo | rfl)
      · have := (hmem y).mp hyo
        refine ⟨this.1, ?_⟩
        by_cases hq : y = v
        · rw [if_pos hq]
        · rw [if_neg hq]
          exact this.2
      · exact ⟨hvn, by rw [if_pos rfl]⟩
    · rintro ⟨hyn, hyv⟩
      by_cases hq : y = v
      · exact Or.inr hq
      · rw [if_neg hq] at hyv
        exact Or.inl ((hmem y).mpr ⟨hyn, hyv⟩)
  · intro y hy hne
    obtain ⟨u, h1, h2, h3⟩ := hpar y hy hne
    refine ⟨u, h1, List.mem_append_left _ h2, ?_⟩
    intro hym
    rw [List.mem_append, List.mem_singleton] at hym
    rcases hym with hyo | rfl
    · rw [pos_append_of_mem _ h2, pos_append_of_mem _ hyo]
      exact h3 hyo
    · rw [pos_append_of_mem _ h2, pos_append_self _ hvo]
      exact pos_lt_of_mem h2

/-- Re-marking an already visited node leaves order consistency untouched. -/
theorem ordCons_mark_vis {n : Nat} {visited : List Bool} {parent : List Int} {ord : List Nat}
    (h : OrdCons n visited parent ord) (v : Nat) (hvt : visited.getD v false = true) :
    OrdCons n (visited.set v true) parent ord := by
  obtain ⟨hnd, hmem, hpar⟩ := h
  have hv' : ∀ y, (visited.set v true).getD y false = visited.getD y false := by
    intro y
    rw [getD_set]
    by_cases hc : y = v ∧ v < visited.length
    · rw [if_pos hc, hc.1]
      exact hvt.symm
    · rw [if_neg hc]
  exact ⟨hnd, fun y => by rw [hv' y]; exact hmem y, hpar⟩

namespace Maze

/-- Main correctness bundle for `dfs_recursive`: any successful run extends
the state monotonically (`DfsOut`), marks the current node, keeps the current
node's predecessor, and returns `true` only if a path to the target exists. -/
theorem dfs_spec {g : Graph} {e : Nat} (hwf : WF g) :
    ∀ fuel cur st b st', cur < g.num_nodes → st.visited.length = g.num_nodes →
      st.parent.length = g.num_nodes →
      dfs_recursive g e fuel cur st = some (b, st') →
      DfsOut g e st b st' ∧ st'.visited.getD cur false = true ∧
      st'.parent.getD cur (-1) = st.parent.getD cur (-1) ∧
      (b = true → ∃ l k, MPath g cur e l k) := by
  intro fuel₀ cur₀ st₀
  refine Maze.dfs_recursive.induct g e
    (fun fuel cur st => ∀ b st', cur < g.num_nodes → st.visited.length = g.num_nodes →
      st.parent.length = g.num_nodes →
      dfs_recursive g e fuel cur st = some (b, st') →
      DfsOut g e st b st' ∧ st'.visited.getD cur false = true ∧
      st'.parent.getD cur (-1) = st.parent.getD cur (-1) ∧
      (b = true → ∃ l k, MPath g cur e l k))
    (fun fuel ws cur st => ∀ b st', (∀ w ∈ ws, w ∈ adjl g cur) → cur < g.num_nodes →
      st.visited.length = g.num_nodes → st.parent.length = g.num_nodes →
      st.visited.getD cur false = true →
      dfsNeighbors g e fuel ws cur st = some (b, st') →
      DfsOut g e st b st' ∧
      (b = false → ∀ w ∈ ws, st'.visited.getD w false = true) ∧
      (b = true → ∃ l k, MPath g cur e l k))
    ?_ ?_ ?_ ?_ ?_ ?_ ?_ ?_ fuel₀ cur₀ st₀
  · intro x x1 b st' _ _ _ heq
    simp [dfs_recursive] at heq
  · intro fuel st0 b st' hcur hvlen hplen heq
    have hmark : ∀ y, (st0.visited.set e true).getD y false =
        if y = e then true else st0.visited.getD y false :=
      dfs_mark_getD (by rw [hvlen]; exact hcur)
    have heq2 : some (true,
        ({ visited := st0.visited.set e true, parent := st0.parent } : DfsState)) =
        some (b, st') := by
      rw [← heq]
      simp [dfs_recursive]
    rw [Option.some.injEq, Prod.mk.injEq] at heq2
    obtain ⟨hb, hst⟩ := heq2
    subst hst
    subst hb
    refine ⟨⟨(by simp), rfl, ?_, fun v _ => rfl, (fun h => nomatch h), (fun h => nomatch h),
      ?_⟩, ?_, rfl, fun _ => ⟨[e], 0, MPath.nil e⟩⟩
    · intro v hv
      show (st0.visited.set e true).getD v false = true
      rw [hmark v]
      split
      · rfl
      · exact hv
    · intro ord hord
      by_cases hev : st0.visited.getD e false = true
      · exact ⟨[], by rw [List.append_nil]; exact ordCons_mark_vis hord e hev⟩
      · have hef : st0.visited.getD e false = false := by
          cases hq : st0.visited.getD e false
          · rfl
          · exact absurd hq hev
        exact ⟨[e], ordCons_mark hord e hcur (by rw [hvlen]; exact hcur) hef⟩
    · show (st0.visited.set e true).getD e false = true
      rw [hmark e, if_pos rfl]
  · intro fuel current_node st0 st hne hIH b st' hcur hvlen hplen heq
    have hstv : st.visited = st0.visited.set current_node true := rfl
    have hstp : st.parent = st0.parent := rfl
    have hmark : ∀ y, st.visited.getD y false =
        if y = current_node then true else st0.visited.getD y false := by
      rw [hstv]
      exact dfs_mark_getD (by rw [hvlen]; exact hcur)
    have heq2 : dfsNeighbors g e fuel (adjl g current_node) current_node st =
        some (b, st') := by
      rw [← heq]
      simp [dfs_recursive, hne]
    obtain ⟨hout, hws, hsound⟩ := hIH b st' (fun w h => h) hcur
      (by rw [hstv, List.length_set]; exact hvlen)
      (by rw [hstp]; exact hplen)
      (by rw [hmark current_node, if_pos rfl])
      heq2
    refine ⟨⟨?_, ?_, ?_, ?_, ?_, ?_, ?_⟩, ?_, ?_, hsound⟩
    · rw [hout.vlen, hstv, List.length_set]
    · rw [hout.plen, hstp]
    · intro v hv
      refine hout.vmono v ?_
      rw [hmark v]
      split
      · rfl
      · exact hv
    · intro v hv
      have h1 : st.visited.getD v false = true := by
        rw [hmark v]
        split
        · rfl
        · exact hv
      rw [hout.pfix v h1, hstp]
    · intro hb hv
      have h2 := hout.enew hb hv
      rw [hmark e, if_neg (fun hc : e = current_node => hne hc.symm)] at h2
      exact h2
    · intro hb v hv' hv0 w hw
      by_cases hvc : v = current_node
      · subst hvc
        exact hws hb w hw
      · refine hout.closure hb v hv' ?_ w hw
        rw [hmark v, if_neg hvc]
        exact hv0
    · intro ord hord
      by_cases hcv : st0.visited.getD current_node false = true
      · have hord1 : OrdCons g.num_nodes st.visited st.parent ord := by
          rw [hstv, hstp]
          exact ordCons_mark_vis hord current_node hcv
        exact hout.order ord hord1
      · have hcf : st0.visited.getD current_node false = false := by
          cases hq : st0.visited.getD current_node false
          · rfl
          · exact absurd hq hcv
        have hord1 : OrdCons g.num_nodes st.visited st.parent (ord ++ [current_node]) := by
          rw [hstv, hstp]
          exact ordCons_mark hord current_node hcur (by rw [hvlen]; exact hcur) hcf
        obtain ⟨ext, hext⟩ := hout.order (ord ++ [current_node]) hord1
        exact ⟨[current_node] ++ ext, by rw [← List.append_assoc]; exact hext⟩
    · exact hout.vmono current_node (by rw [hmark current_node, if_pos rfl])
    · rw [hout.pfix current_node (by rw [hmark current_node, if_pos rfl]), hstp]
  · intro x x1 st b st' hws hcur hvlen hplen hcvis heq
    have heq2 : some (false, st) = some (b, st') := by
      rw [← heq]
      simp [dfsNeighbors]
    rw [Option.some.injEq, Prod.mk.injEq] at heq2
    obtain ⟨hb, hst⟩ := heq2
    subst hst
    subst hb
    exact ⟨DfsOut.refl st false, fun _ w hw => absurd hw (List.not_mem_nil w),
      fun h => nomatch h⟩
  · intro fuel v rest current_node st hvis hIH b st' hws hcur hvlen hplen hcvis heq
    have heq2 : dfsNeighbors g e fuel rest current_node st = some (b, st') := by
      rw [← heq]
      simp only [dfsNeighbors]
      rw [if_pos hvis]
    obtain ⟨hout, hws2, hsound⟩ :=
      hIH b st' (fun w h => hws w (List.mem_cons_of_mem v h)) hcur hvlen hplen hcvis heq2
    refine ⟨hout, ?_, hsound⟩
    intro hb w hw
    rcases List.mem_cons.mp hw with rfl | hw2
    · exact hout.vmono w hvis
    · exact hws2 hb w hw2
  · intro fuel v rest current_node st hnv hnone hIH b st' hws hcur hvlen hplen hcvis heq
    have hcontra : dfsNeighbors g e fuel (v :: rest) current_node st = none := by
      simp only [dfsNeighbors]
      rw [if_neg hnv, hnone]
    rw [hcontra] at heq
    cases heq
  · intro fuel v rest current_node st hnv st2 hrec hIH b st' hws hcur hvlen hplen hcvis heq
    have hvn : v < g.num_nodes := edge_dest_lt_m hwf (hws v (List.mem_cons_self v rest))
    have hvf : st.visited.getD v false = false := by
      cases hq : st.visited.getD v false
      · rfl
      · exact absurd hq hnv
    obtain ⟨hout1, hvvis, hpfix1, hsound1⟩ :=
      hIH true st2 hvn hvlen (by simp [hplen]) hrec
    have heq2 : some (true, st2) = some (b, st') := by
      rw [← heq]
      simp only [dfsNeighbors]
      rw [if_neg hnv, hrec]
    rw [Option.some.injEq, Prod.mk.injEq] at heq2
    obtain ⟨hb, hst⟩ := heq2
    subst hst
    subst hb
    have hset : DfsOut g e st false
        ({ visited := st.visited, parent := st.parent.set v ((current_node : Nat) : Int) }) :=
      dfsout_set_parent st hvf hcur hcvis
    refine ⟨hset.trans hout1, (fun h => nomatch h), ?_⟩
    intro _
    obtain ⟨l, k, hp⟩ := hsound1 rfl
    exact ⟨current_node :: l, k + 1, MPath.cons (hws v (List.mem_cons_self v rest)) hp⟩
  · intro fuel v rest current_node st hnv st2 hrec hIH1 hIH2 b st' hws hcur hvlen hplen hcvis heq
    have hvn : v < g.num_nodes := edge_dest_lt_m hwf (hws v (List.mem_cons_self v rest))
    have hvf : st.visited.getD v false = false := by
      cases hq : st.visited.getD v false
      · rfl
      · exact absurd hq hnv
    obtain ⟨hout1, hvvis, hpfix1, _⟩ :=
      hIH1 false st2 hvn hvlen (by simp [hplen]) hrec
    have hset : DfsOut g e st false
        ({ visited := st.visited, parent := st.parent.set v ((current_node : Nat) : Int) }) :=
      dfsout_set_parent st hvf hcur hcvis
    have hout01 : DfsOut g e st false st2 := hset.trans hout1
    have heq2 : dfsNeighbors g e fuel rest current_node st2 = some (b, st') := by
      rw [← heq]
      simp only [dfsNeighbors]
      rw [if_neg hnv, hrec]
    obtain ⟨hout2, hws2, hsound2⟩ :=
      hIH2 b st' (fun w h => hws w (List.mem_cons_of_mem v h)) hcur
        (by rw [hout01.vlen]; exact hvlen)
        (by rw [hout01.plen]; exact hplen)
        (hout01.vmono current_node hcvis)
        heq2
    refine ⟨hout01.trans hout2, ?_, hsound2⟩
    intro hb w hw
    rcases List.mem_cons.mp hw with rfl | hw2
    · exact hout2.vmono w hvvis
    · exact hws2 hb w hw2

end Maze

namespace Maze

/-- Fuel sufficiency: with at least as much fuel as there are unvisited
nodes, `dfs_recursive` never runs out (the C recursion always terminates
normally). -/
theorem dfs_fuel {g : Graph} {e : Nat} (hwf : WF g) :
    ∀ fuel cur st, cur < g.num_nodes → st.visited.length = g.num_nodes →
      st.parent.length = g.num_nodes → st.visited.getD cur false = false →
      st.visited.count false ≤ fuel →
      dfs_recursive g e fuel cur st ≠ none := by
  intro fuel₀ cur₀ st₀
  refine Maze.dfs_recursive.induct g e
    (fun fuel cur st => cur < g.num_nodes → st.visited.length = g.num_nodes →
      st.parent.length = g.num_nodes → st.visited.getD cur false = false →
      st.visited.count false ≤ fuel →
      dfs_recursive g e fuel cur st ≠ none)
    (fun fuel ws cur st => (∀ w ∈ ws, w ∈ adjl g cur) →
      st.visited.length = g.num_nodes → st.parent.length = g.num_nodes →
      st.visited.count false ≤ fuel →
      dfsNeighbors g e fuel ws cur st ≠ none)
    ?_ ?_ ?_ ?_ ?_ ?_ ?_ ?_ fuel₀ cur₀ st₀
  · intro x x1 hcur hvlen hplen hunvis hcount
    have := count_false_set x1.visited x (by rw [hvlen]; exact hcur) hunvis
    exfalso
    omega
  · intro fuel st0 _ _ _ _ _
    simp [dfs_recursive]
  · intro fuel current_node st0 st hne hIH hcur hvlen hplen hunvis hcount
    have hcnt2 : st.visited.count false + 1 = st0.visited.count false :=
      count_false_set st0.visited current_node (by rw [hvlen]; exact hcur) hunvis
    have hres := hIH (fun w h => h)
      (by show (st0.visited.set current_node true).length = _
          rw [List.length_set]; exact hvlen)
      hplen (by omega)
    intro hnone
    refine hres ?_
    rw [← hnone]
    simp [dfs_recursive, hne]
  · intro x x1 st _ _ _ _
    simp [dfsNeighbors]
  · intro fuel v rest current_node st hvis hIH hws hvlen hplen hcount
    have hres := hIH (fun w h => hws w (List.mem_cons_of_mem v h)) hvlen hplen hcount
    intro hnone
    refine hres ?_
    rw [← hnone]
    simp only [dfsNeighbors]
    rw [if_pos hvis]
  · intro fuel v rest current_node st hnv hnone hIH hws hvlen hplen hcount
    have hvn : v < g.num_nodes := edge_dest_lt_m hwf (hws v (List.mem_cons_self v rest))
    have hvf : st.visited.getD v false = false := by
      cases hq : st.visited.getD v false
      · rfl
      · exact absurd hq hnv
    exact fun _ => absurd hnone (hIH hvn hvlen (by simp [hplen]) hvf hcount)
  · intro fuel v rest current_node st hnv st2 hrec hIH hws hvlen hplen hcount
    have hstep : dfsNeighbors g e fuel (v :: rest) current_node st = some (true, st2) := by
      simp only [dfsNeighbors]
      rw [if_neg hnv, hrec]
    intro hnone
    rw [hstep] at hnone
    cases hnone
  · intro fuel v rest current_node st hnv st2 hrec hIH1 hIH2 hws hvlen hplen hcount
    have hvn : v < g.num_nodes := edge_dest_lt_m hwf (hws v (List.mem_cons_self v rest))
    obtain ⟨hout1, _, _, _⟩ := dfs_spec hwf fuel v
      ({ visited := st.visited, parent := st.parent.set v ((current_node : Nat) : Int) })
      false st2 hvn hvlen (by simp [hplen]) hrec
    have hcm : st2.visited.count false ≤ st.visited.count false := by
      refine count_false_mono st.visited st2.visited hout1.vlen.symm ?_
      exact fun y hy => hout1.vmono y hy
    have hstep : dfsNeighbors g e fuel (v :: rest) current_node st =
        dfsNeighbors g e fuel rest current_node st2 := by
      simp only [dfsNeighbors]
      rw [if_neg hnv, hrec]
    rw [hstep]
    refine hIH2 (fun w h => hws w (List.mem_cons_of_mem v h)) ?_ ?_ (le_trans hcm hcount)
    · rw [hout1.vlen]
      exact hvlen
    · rw [hout1.plen]
      simp [hplen]

end Maze

theorem getD_replicate_self {α : Type} (n i : Nat) (a : α) :
    (List.replicate n a).getD i a = a := by
  by_cases h : i < n
  · exact getD_replicate i a a h
  · refine List.getD_eq_default _ _ ?_
    simp only [List.length_replicate]
    omega

namespace Maze

/-- The fresh all-false / all-sentinel state is order-consistent with the
empty settle order. -/
theorem ordCons_init (n : Nat) :
    OrdCons n (List.replicate n false) (List.replicate n (-1)) [] := by
  refine ⟨List.nodup_nil, ?_, ?_⟩
  · intro v
    simp [getD_replicate_self n v false]
  · intro v hv hne
    rw [getD_replicate_self n v (-1)] at hne
    exact absurd rfl hne

/-- `dfs` is the defaulted value of a `dfs_recursive` run that, with
`num_nodes` fuel, always completes. -/
theorem dfs_run {g : Graph} (hwf : WF g) {s e : Nat} (hs : s < g.num_nodes) :
    dfs_recursive g e g.num_nodes s
      { visited := List.replicate g.num_nodes false,
        parent := List.replicate g.num_nodes (-1) } =
      some ((dfs g s e).1, (dfs g s e).2) := by
  cases hq : dfs_recursive g e g.num_nodes s
      { visited := List.replicate g.num_nodes false,
        parent := List.replicate g.num_nodes (-1) } with
  | none =>
    exact absurd hq (dfs_fuel hwf g.num_nodes s _ hs (by simp) (by simp)
      (getD_replicate s false false hs) (by simp))
  | some p =>
    have hd : dfs g s e = p := by
      unfold dfs
      rw [hq]
      rfl
    rw [hd]

/-- The output facts of a full `dfs` run: state extension from the fresh
state, the source marked visited, the source's predecessor untouched, and
soundness of a `true` answer. -/
theorem dfs_post {g : Graph} (hwf : WF g) {s e : Nat} (hs : s < g.num_nodes) :
    DfsOut g e
      { visited := List.replicate g.num_nodes false,
        parent := List.replicate g.num_nodes (-1) } (dfs g s e).1 (dfs g s e).2 ∧
    (dfs g s e).2.visited.getD s false = true ∧
    (dfs g s e).2.parent.getD s (-1) = -1 ∧
    ((dfs g s e).1 = true → ∃ l k, MPath g s e l k) := by
  obtain ⟨hout, h1, h2, h3⟩ := dfs_spec hwf g.num_nodes s _ (dfs g s e).1 (dfs g s e).2
    hs (by simp) (by simp) (dfs_run hwf hs)
  refine ⟨hout, h1, ?_, h3⟩
  rw [h2]
  exact getD_replicate_self _ _ _

/-- Completeness of `dfs`: a reachable target is found. -/
theorem dfs_complete {g : Graph} (hwf : WF g) {s e : Nat} (hs : s < g.num_nodes)
    (he : e < g.num_nodes) (hr : ReachM g s e) : (dfs g s e).1 = true := by
  obtain ⟨hout, hvis_s, _, _⟩ := @dfs_post g hwf s e hs
  cases hb : (dfs g s e).1 with
  | true => rfl
  | false =>
    exfalso
    obtain ⟨l, k, hp⟩ := hr
    have hcl : ∀ v, v < g.num_nodes → (dfs g s e).2.visited.getD v false = true →
        ∀ w ∈ adjl g v, (dfs g s e).2.visited.getD w false = true := by
      intro v hv hvis w hw
      exact hout.closure hb v hvis (getD_replicate_self _ _ _) w hw
    have hevis : (dfs g s e).2.visited.getD e false = true :=
      reach_closed hwf _ hcl hp hs hvis_s
    have := hout.enew hb hevis
    rw [getD_replicate_self] at this
    cases this

end Maze

/-- Claim C7: for every well-formed maze graph and valid source/target,
`dfs(graph, source, target)` returns `found = true` exactly when the target
is reachable from the source; and the instant one neighbour's recursive
subtree reports success, that success (flag and state) is propagated upward
unchanged, independently of the remaining neighbour list, so no further
neighbours of the current node are explored. -/
theorem C7_dfs_reachability (g : Maze.Graph) (s e : Nat) (hwf : Maze.WF g)
    (hs : s < g.num_nodes) (he : e < g.num_nodes) :
    ((Maze.dfs g s e).1 = true ↔ Maze.ReachM g s e) ∧
    (∀ fuel v rest cur st st',
      st.visited.getD v false = false →
      Maze.dfs_recursive g e fuel v
        ({ visited := st.visited, parent := st.parent.set v ((cur : Nat) : Int) }) =
        some (true, st') →
      Maze.dfsNeighbors g e fuel (v :: rest) cur st = some (true, st')) := by
  refine ⟨⟨fun hb => (@Maze.dfs_post g hwf s e hs).2.2.2 hb,
    fun hr => Maze.dfs_complete hwf hs he hr⟩, ?_⟩
  intro fuel v rest cur st st' hvf hrec
  have hnv : ¬ st.visited.getD v false = true := by
    rw [hvf]
    exact Bool.false_ne_true
  simp only [Maze.dfsNeighbors]
  rw [if_neg hnv, hrec]

/-- Witness for C7 on the three-node line maze: reachability of node 2 from
node 0 follows from the `dfs` run returning `true`. -/
theorem C7_dfs_reachability_witness : Maze.ReachM mLine 0 2 :=
  (C7_dfs_reachability mLine 0 2 (by decide) (by decide) (by decide)).1.mp
    (by simp [Maze.dfs, Maze.dfs_recursive, Maze.dfsNeighbors, Maze.adjl, mLine,
      Maze.add_edge, Maze.create_graph])

/-- Claim C4: for a distinct target unreachable from the source, `bfs`
returns `found = -1` with the target's predecessor still the sentinel `-1`,
`dfs` returns `found = false`, and `dijkstra` leaves the target's distance at
`INFINITY` and its predecessor at `-1`: each algorithm reports "no path". -/
theorem C4_unreachable_no_path (gm : Maze.Graph) (s t : Nat)
    (gt : Transit.Graph) (s2 t2 : Nat)
    (hwfm : Maze.WF gm) (hs : s < gm.num_nodes) (ht : t < gm.num_nodes)
    (hne : t ≠ s) (hnr : ¬ Maze.ReachM gm s t)
    (hwft : Transit.WF gt) (hw : Transit.nonneg gt) (hs2 : s2 < gt.num_nodes)
    (ht2 : t2 < gt.num_nodes) (hne2 : t2 ≠ s2) (hnr2 : ¬ Transit.ReachT gt s2 t2) :
    ((Maze.bfs gm s t).found = -1 ∧ (Maze.bfs gm s t).parent.getD t (-1) = -1 ∧
      (Maze.dfs gm s t).1 = false) ∧
    ((Transit.dijkstra gt s2).dist.getD t2 0 = Transit.INFINITY ∧
      (Transit.dijkstra gt s2).parent.getD t2 (-1) = -1) := by
  have hbp : Maze.BPost gm s t (Maze.bfs gm s t) := Maze.bfs_post hwfm hs
  have hvt : (Maze.bfs gm s t).visited.getD t false = false := by
    rcases hbp.result with ⟨_, hv, _⟩ | ⟨_, hv⟩
    · exact hv
    · exfalso
      obtain ⟨dv, ⟨l, hp⟩, _⟩ := Maze.bpost_vis_hop hbp t ht hv
      exact hnr ⟨l, dv, hp⟩
  obtain ⟨inv, _⟩ := Transit.dijkstra_inv hwft hw hs2
  have hdInf : (Transit.dijkstra gt s2).dist.getD t2 0 = Transit.INFINITY := by
    by_cases hd : (Transit.dijkstra gt s2).dist.getD t2 0 = Transit.INFINITY
    · exact hd
    · exfalso
      obtain ⟨l, hp⟩ := inv.achieved t2 ht2 hd
      exact hnr2 ⟨l, _, hp.any_of⟩
  refine ⟨⟨?_, hbp.unvis_parent t ht hvt, ?_⟩, hdInf, ?_⟩
  · rcases hbp.result with ⟨hf, _, _⟩ | ⟨hf, hv⟩
    · exact hf
    · exfalso
      rw [hvt] at hv
      cases hv
  · cases hb : (Maze.dfs gm s t).1 with
    | false => rfl
    | true =>
      exfalso
      obtain ⟨_, _, _, h3⟩ := @Maze.dfs_post gm hwfm s t hs
      exact hnr (h3 hb)
  · by_cases hp : (Transit.dijkstra gt s2).parent.getD t2 (-1) = -1
    · exact hp
    · exfalso
      obtain ⟨u, _, _, _, hd⟩ := inv.parentOK t2 ht2 hp
      exact hd hdInf

/-- Witness for C4 on the edgeless mazes/graphs: node 1 is unreachable from
node 0 in both `mIso2` and `gIso3`, and all three algorithms report no path. -/
theorem C4_unreachable_no_path_witness :
    ((Maze.bfs mIso2 0 1).found = -1 ∧ (Maze.bfs mIso2 0 1).parent.getD 1 (-1) = -1 ∧
      (Maze.dfs mIso2 0 1).1 = false) ∧
    ((Transit.dijkstra gIso3 0).dist.getD 1 0 = Transit.INFINITY ∧
      (Transit.dijkstra gIso3 0).parent.getD 1 (-1) = -1) :=
  C4_unreachable_no_path mIso2 0 1 gIso3 0 1 (by decide) (by decide) (by decide)
    (by decide)
    (by
      rintro ⟨l, k, hp⟩
      cases hp with
      | cons hb hp2 =>
        have hadj : Maze.adjl mIso2 0 = [] := by decide
        rw [hadj] at hb
        cases hb)
    (by decide) (by decide) (by decide) (by decide) (by decide)
    (by
      rintro ⟨l, c, hp⟩
      cases hp with
      | cons hS he hp2 =>
        have he2 : _ ∈ Transit.adjl gIso3 0 := he
        have hadj : Transit.adjl gIso3 0 = [] := by decide
        rw [hadj] at he2
        cases he2)

/-- Claim C10: after a completed run of `bfs`, `dfs`, or `dijkstra` from a
source node, `predecessor[source]` still holds the sentinel `-1`: no
traversal ever assigns a predecessor to its own source node. -/
theorem C10_source_no_predecessor (gm : Maze.Graph) (s e : Nat)
    (gt : Transit.Graph) (s2 : Nat)
    (hwfm : Maze.WF gm) (hs : s < gm.num_nodes)
    (hwft : Transit.WF gt) (hw : Transit.nonneg gt) (hs2 : s2 < gt.num_nodes) :
    (Maze.bfs gm s e).parent.getD s (-1) = -1 ∧
    (Maze.dfs gm s e).2.parent.getD s (-1) = -1 ∧
    (Transit.dijkstra gt s2).parent.getD s2 (-1) = -1 :=
  ⟨(@Maze.bfs_post gm s e hwfm hs).parent_s, (@Maze.dfs_post gm hwfm s e hs).2.2.1,
    (Transit.dijkstra_inv hwft hw hs2).1.parent_s⟩

/-- Witness for C10 on the line maze and the three-node transit example. -/
theorem C10_source_no_predecessor_witness :
    (Maze.bfs mLine 0 2).parent.getD 0 (-1) = -1 ∧
    (Maze.dfs mLine 0 2).2.parent.getD 0 (-1) = -1 ∧
    (Transit.dijkstra gABC 0).parent.getD 0 (-1) = -1 :=
  C10_source_no_predecessor mLine 0 2 gABC 0 (by decide) (by decide) (by decide)
    (by decide) (by decide)

/-- Claim C8: the predecessor maps produced by completed runs of `bfs`,
`dfs`, and `dijkstra` are cycle-free: the backward walk
`current := predecessor[current]` starting from any node terminates within
`num_nodes` steps (here: `pathWalk` with `num_nodes` fuel returns a value). -/
theorem C8_walk_termination (gm : Maze.Graph) (s e : Nat)
    (gt : Transit.Graph) (s2 : Nat)
    (hwfm : Maze.WF gm) (hs : s < gm.num_nodes)
    (hwft : Transit.WF gt) (hw : Transit.nonneg gt) (hs2 : s2 < gt.num_nodes) :
    (∀ c, c < gm.num_nodes →
      (pathWalk (Maze.bfs gm s e).parent ((s : Nat) : Int) gm.num_nodes
        ((c : Nat) : Int) []).isSome) ∧
    (∀ c, c < gm.num_nodes →
      (pathWalk (Maze.dfs gm s e).2.parent ((s : Nat) : Int) gm.num_nodes
        ((c : Nat) : Int) []).isSome) ∧
    (∀ c, c < gt.num_nodes →
      (pathWalk (Transit.dijkstra gt s2).parent ((s2 : Nat) : Int) gt.num_nodes
        ((c : Nat) : Int) []).isSome) := by
  refine ⟨?_, ?_, ?_⟩
  · obtain ⟨ord, hord⟩ := (@Maze.bfs_post gm s e hwfm hs).order
    exact fun c hc => ranked_walk _ _ (ordCons_ranked hord) _ c hc []
  · obtain ⟨ext, hord⟩ :=
      (@Maze.dfs_post gm hwfm s e hs).1.order [] (Maze.ordCons_init gm.num_nodes)
    exact fun c hc => ranked_walk _ _ (ordCons_ranked hord) _ c hc []
  · obtain ⟨ord, hord⟩ := (Transit.dijkstra_inv hwft hw hs2).1.order
    exact fun c hc => ranked_walk _ _ (ordCons_ranked hord) _ c hc []

/-- Witness for C8: the walks from node 1 complete on the concrete runs. -/
theorem C8_walk_termination_witness :
    (pathWalk (Maze.bfs mLine 0 2).parent ((0 : Nat) : Int) mLine.num_nodes
      ((1 : Nat) : Int) []).isSome ∧
    (pathWalk (Maze.dfs mLine 0 2).2.parent ((0 : Nat) : Int) mLine.num_nodes
      ((1 : Nat) : Int) []).isSome ∧
    (pathWalk (Transit.dijkstra gABC 0).parent ((0 : Nat) : Int) gABC.num_nodes
      ((1 : Nat) : Int) []).isSome := by
  obtain ⟨h1, h2, h3⟩ := C8_walk_termination mLine 0 2 gABC 0 (by decide) (by decide)
    (by decide) (by decide) (by decide)
  exact ⟨h1 1 (by decide), h2 1 (by decide), h3 1 (by decide)⟩
